import Mathlib

/-!
Verification development for the PodShift dependency mapper
(`scripts/discovery/dependency_mapper.py`).

The core of the program is a pipeline over a dependency dictionary
`Dict[str, Set[str]]` mapping a node (container or service name) to the set
of nodes it depends on:

  * `build_dependency_graph` merges relationship facts into one dictionary,
    and derives the graph's node list and edge list;
  * `_detect_cycles` runs a depth-first search recording cycles;
  * `_calculate_startup_order` runs Kahn's algorithm;
  * `generate_migration_sequence` groups the startup order into level
    phases, prepends a cycle-resolution phase, and estimates durations.

Python dictionaries are modelled as association lists (`DepMap`), keeping
insertion order; Python sets are modelled as duplicate-free lists in
insertion order (set iteration order is unspecified in Python, so any
theorem below that depends on an order only uses properties that are
independent of the chosen representative order).  Recursion in the Python
code is modelled with an explicit fuel parameter that is provably large
enough (each unit of fuel corresponds to one "real" descent of the DFS /
one pop of Kahn's queue, and both are bounded by the number of nodes).
Arithmetic of the duration estimator is modelled over `ℚ`; Python's
`int(...)` truncation is `pyInt` and `round(x, 1)` is `round1`.
-/

/-- A Python `Dict[str, Set[str]]`: association list from a node to its
list of dependencies.  The representation invariant of the Python type
(distinct keys, duplicate-free value sets) is `DictWF` below. -/
abbrev DepMap := List (String × List String)

/-- Model of `dependencies.get(node, [])`: value of the first entry whose
key is `n`, or `[]` when there is none. -/
def lookup : DepMap → String → List String
  | [], _ => []
  | p :: ps, n => if p.1 = n then p.2 else lookup ps n

/-- The representation invariant of `Dict[str, Set[str]]`: keys are
distinct and each dependency set has no duplicates. -/
def DictWF (deps : DepMap) : Prop :=
  (deps.map Prod.fst).Nodup ∧ ∀ p ∈ deps, p.2.Nodup

instance : DecidablePred DictWF := fun deps =>
  inferInstanceAs (Decidable (_ ∧ _))

/-- Node list of the graph: `all_nodes = set(keys) ∪ all dependency sets`
(in `_calculate_startup_order` and `build_dependency_graph`), modelled in
first-occurrence order. -/
def allNodesList (deps : DepMap) : List String :=
  (deps.map Prod.fst ++ (deps.map Prod.snd).flatten).dedup

/-- Directed edge of the dependency graph: `a` depends on `b`. -/
def Edge (deps : DepMap) (a b : String) : Prop := b ∈ lookup deps a

instance (deps : DepMap) : DecidableRel (Edge deps) := fun a b =>
  inferInstanceAs (Decidable (b ∈ lookup deps a))

/-- A cycle of the dependency graph: a nonempty node sequence where each
consecutive pair is an edge and the last node has an edge back to the
first (the wrap edge is implied, the first node is not repeated). -/
def IsCycle (deps : DepMap) : List String → Prop
  | [] => False
  | a :: l => List.Chain (Edge deps) a (l ++ [a])

instance decChainEdge (deps : DepMap) : ∀ (a : String) (l : List String),
    Decidable (List.Chain (Edge deps) a l)
  | _, [] => isTrue List.Chain.nil
  | a, b :: l =>
      haveI := decChainEdge deps b l
      decidable_of_iff (Edge deps a b ∧ List.Chain (Edge deps) b l)
        List.chain_cons.symm

instance (deps : DepMap) : ∀ c, Decidable (IsCycle deps c)
  | [] => isFalse (fun h => h)
  | a :: l => decChainEdge deps a (l ++ [a])

/-- Acyclicity: no list of nodes forms a cycle. -/
def Acyclic (deps : DepMap) : Prop := ∀ c, ¬ IsCycle deps c

/-! ### Graph builder (`build_dependency_graph`, lines 481-537)

`all_dependencies` is a `defaultdict(set)` accumulated from every
relationship fact `(source, target)` collected by the extractors
(container, network, volume and compose dependencies).  `addFact` models
`all_dependencies[source].add(target)`: it inserts the target into the
first entry for the source, appending a new entry when the source is new
and ignoring duplicate targets (set semantics). -/

/-- Add an element to a Python set modelled as a duplicate-free list. -/
def addTarget (ts : List String) (t : String) : List String :=
  if t ∈ ts then ts else ts ++ [t]

/-- Record one relationship fact in the accumulated dictionary. -/
def addFact : DepMap → String × String → DepMap
  | [], f => [(f.1, [f.2])]
  | p :: ps, f =>
      if p.1 = f.1 then (p.1, addTarget p.2 f.2) :: ps else p :: addFact ps f

/-- Fold a fact list into the dictionary, starting from `acc`. -/
def buildAux (acc : DepMap) : List (String × String) → DepMap
  | [] => acc
  | f :: fs => buildAux (addFact acc f) fs

/-- The merged dependency dictionary of all relationship facts. -/
def buildDeps (facts : List (String × String)) : DepMap := buildAux [] facts

/-- The dependency graph as stored in
`dependencies["dependency_graph"]`: node list and edge list.  Each edge
dict `{"from": source, "to": target, "type": "depends_on"}` is modelled
as the pair `(source, target)` (the `"type"` field is the constant
`"depends_on"` on every edge). -/
structure DependencyGraph where
  nodes : List String
  edges : List (String × String)
deriving DecidableEq, Repr

/-- Model of `build_dependency_graph`: nodes are all keys and all
dependency targets, and every `(source, target)` pair of the merged
dictionary becomes one edge. -/
def build_dependency_graph (facts : List (String × String)) : DependencyGraph :=
  let all_dependencies := buildDeps facts
  { nodes := allNodesList all_dependencies
    edges := (all_dependencies.map (fun p => p.2.map (fun t => (p.1, t)))).flatten }

/-! ### Cycle detector (`_detect_cycles`, lines 539-573)

The Python function keeps `visited` (a set), `rec_stack` (a set) and
`path` (a list).  `rec_stack` always holds exactly the elements of
`path` (they are pushed and popped together), so the model keeps only
`path` and tests stack membership with `node ∈ path`.  The nested `dfs`
recursion is modelled with fuel: one unit of fuel is consumed per real
descent, and a descent adds a previously unvisited node to `visited`, so
`(allNodesList deps).length + 1` fuel is always enough. -/

/-- Left fold of a state transformer over a list of nodes; models the
`for neighbor in ...` loop of `dfs`. -/
def foldSt {σ : Type} (f : String → σ → σ) : List String → σ → σ
  | [], st => st
  | nb :: rest, st => foldSt f rest (f nb st)

/-- Model of the inner `dfs(node)` of `_detect_cycles`.  State is
`(visited, cycles)`; `path` is the current recursion stack.  On a stack
hit it records `path[path.index(node):] + [node]`; on a visited hit it
returns unchanged; otherwise it marks the node visited and folds over
its dependencies with the node pushed on the path. -/
def dfs (deps : DepMap) : Nat → String → List String → List String →
    List (List String) → List String × List (List String)
  | fuel, node, visited, path, cycles =>
    if node ∈ path then
      (visited, cycles ++ [path.drop (path.indexOf node) ++ [node]])
    else if node ∈ visited then (visited, cycles)
    else match fuel with
      | 0 => (visited, cycles)
      | fuel' + 1 =>
          foldSt (fun nb st => dfs deps fuel' nb st.1 (path ++ [node]) st.2)
            (lookup deps node) (visited ++ [node], cycles)

/-- The outer loop of `_detect_cycles`: run `dfs` from every key that is
not yet visited. -/
def detectLoop (deps : DepMap) (fuel : Nat) :
    List (String × List String) → List String × List (List String) →
    List String × List (List String)
  | [], st => st
  | p :: ps, st =>
      detectLoop deps fuel ps
        (if p.1 ∈ st.1 then st else dfs deps fuel p.1 st.1 [] st.2)

/-- Model of `DependencyMapper._detect_cycles`. -/
def _detect_cycles (deps : DepMap) : List (List String) :=
  (detectLoop deps ((allNodesList deps).length + 1) deps ([], [])).2

/-! ### Topological sequencer (`_calculate_startup_order`, lines 575-608)

Kahn's algorithm: `in_degree[source]` counts the dependencies of
`source` and `graph[target]` lists the sources depending on `target`.
The queue is seeded with all nodes of in-degree 0; each pop appends the
node to the startup order and decrements the in-degree of its
dependents, enqueueing those that reach 0.  The while loop is modelled
with fuel; each node enters the queue at most once, so
`(allNodesList deps).length + 1` fuel always drains the queue. -/

/-- Reverse adjacency `graph[target]`: the sources that depend on `t`,
in key order. -/
def revAdj (deps : DepMap) (t : String) : List String :=
  deps.filterMap (fun p => if t ∈ p.2 then some p.1 else none)

/-- One pass of the inner `for neighbor in graph[node]` loop: decrement
each dependent's in-degree and enqueue it when it reaches 0.  In-degrees
are Python ints, modelled as `Int`. -/
def kahnStep (queue : List String) (deg : String → Int) :
    List String → List String × (String → Int)
  | [] => (queue, deg)
  | s :: rest =>
      let d' : String → Int := fun n => if n = s then deg n - 1 else deg n
      kahnStep (if d' s = 0 then queue ++ [s] else queue) d' rest

/-- The while loop of Kahn's algorithm. -/
def kahnLoop (deps : DepMap) :
    Nat → List String → List String → (String → Int) → List String
  | 0, _, order, _ => order
  | _ + 1, [], order, _ => order
  | fuel + 1, x :: queue, order, deg =>
      let st := kahnStep queue deg (revAdj deps x)
      kahnLoop deps fuel st.1 (order ++ [x]) st.2

/-- Model of `DependencyMapper._calculate_startup_order`. -/
def _calculate_startup_order (deps : DepMap) : List String :=
  let nodes := allNodesList deps
  let deg : String → Int := fun n => ((lookup deps n).length : Int)
  kahnLoop deps (nodes.length + 1) (nodes.filter (fun n => deg n = 0)) [] deg

/-! ### Phase planner (`generate_migration_sequence`, lines 610-691) -/

/-- A migration phase.  The Python phase dict has keys `name`,
`containers`, `parallel`, and optionally `description`, `special` and
`cycles`; absent keys are read with `.get(..., False)`, so they are
modelled as fields with the corresponding default value. -/
structure Phase where
  name : String
  containers : List String
  parallel : Bool
  special : Bool
  cycles : List (List String)
  description : String
deriving DecidableEq, Repr

/-- A parallel-group record. -/
structure ParallelGroup where
  phase : Nat
  containers : List String
  reason : String
deriving DecidableEq, Repr

/-- Output of `_estimate_migration_duration`.  Python floats are
modelled as rationals. -/
structure DurationEstimate where
  total_containers : Nat
  estimated_sequential_minutes : ℚ
  estimated_parallel_minutes : ℤ
  estimated_sequential_hours : ℚ
  estimated_parallel_hours : ℚ
  time_savings_percent : ℚ
deriving DecidableEq, Repr

/-- Output of `generate_migration_sequence`, stored in
`dependencies["migration_sequence"]`. -/
structure MigrationSequence where
  phases : List Phase
  parallel_groups : List ParallelGroup
  sequential_order : List String
  total_phases : Nat
  estimated_duration : DurationEstimate
deriving DecidableEq, Repr

/-- Python `int(q)` for the nonnegative-or-not rational `q`:
truncation toward zero. -/
def pyInt (q : ℚ) : ℤ := if q < 0 then -(Int.floor (-q)) else Int.floor q

/-- Python `round(q, 1)`: rounding to one decimal place.  (Mathlib's
`round` rounds half up while Python rounds half to even; no value
asserted by a theorem below falls on a tie.) -/
def round1 (q : ℚ) : ℚ := ((round (10 * q) : ℤ) : ℚ) / 10

/-- Fixed per-container cost, `base_time_per_container = 5` minutes. -/
def base_time_per_container : ℚ := 5

/-- Parallel efficiency factor, `parallel_efficiency = 0.7`. -/
def parallel_efficiency : ℚ := 7 / 10

/-- Model of `_estimate_migration_duration` (lines 693-721). -/
def _estimate_migration_duration (phases : List Phase) : DurationEstimate :=
  let total : Nat := (phases.map (fun ph => ph.containers.length)).sum
  let sequential_minutes : ℚ := (total : ℚ) * base_time_per_container
  let parallel_minutes : ℚ :=
    (phases.map (fun ph =>
      if ph.parallel then base_time_per_container * parallel_efficiency
      else (ph.containers.length : ℚ) * base_time_per_container)).sum
  { total_containers := total
    estimated_sequential_minutes := sequential_minutes
    estimated_parallel_minutes := pyInt parallel_minutes
    estimated_sequential_hours := round1 (sequential_minutes / 60)
    estimated_parallel_hours := round1 (parallel_minutes / 60)
    time_savings_percent :=
      if 0 < sequential_minutes then
        round1 ((1 - parallel_minutes / sequential_minutes) * 100)
      else 0 }

/-- The level computed for `node`: fold of
`level = max(level, lvl + 1)` over the node's container dependencies
that are already processed, where `lvl` is found by scanning
`dependency_levels.items()` for the first level list containing the
dependency. -/
def nodeLevel (cdeps : DepMap) (levels : List (Nat × List String))
    (processed : List String) (node : String) : Nat :=
  foldSt (fun dep lv =>
      if dep ∈ processed then
        match levels.find? (fun p => p.2.contains dep) with
        | some p => max lv (p.1 + 1)
        | none => lv
      else lv)
    (lookup cdeps node) 0

/-- Model of `dependency_levels[level].append(node)` on the
insertion-ordered dict `dependency_levels`. -/
def addToLevel : List (Nat × List String) → Nat → String →
    List (Nat × List String)
  | [], lvl, node => [(lvl, [node])]
  | p :: ps, lvl, node =>
      if p.1 = lvl then (p.1, p.2 ++ [node]) :: ps
      else p :: addToLevel ps lvl node

/-- The `for node in startup_order` loop grouping nodes by dependency
level. -/
def levelsLoop (cdeps : DepMap) :
    List String → List (Nat × List String) → List String →
    List (Nat × List String)
  | [], levels, _ => levels
  | node :: rest, levels, processed =>
      levelsLoop cdeps rest
        (addToLevel levels (nodeLevel cdeps levels processed node) node)
        (processed ++ [node])

/-- The level list stored for level `lvl` (empty when absent). -/
def levelContainers (levels : List (Nat × List String)) (lvl : Nat) :
    List String :=
  ((levels.find? (fun p => p.1 == lvl)).map Prod.snd).getD []

/-- The level a node was assigned to, read back the way the code itself
looks levels up: the key of the first level list containing the node. -/
def levelAssigned (levels : List (Nat × List String)) (n : String) :
    Option Nat :=
  (levels.find? (fun p => p.2.contains n)).map Prod.fst

/-- Level keys in ascending order, `sorted(dependency_levels.keys())`. -/
def sortedLevels (levels : List (Nat × List String)) : List Nat :=
  (levels.map Prod.fst).insertionSort (· ≤ ·)

/-- The phase built for one dependency level. -/
def mkLevelPhase (levels : List (Nat × List String)) (lvl : Nat) : Phase :=
  let containers := levelContainers levels lvl
  { name := "Phase " ++ toString (lvl + 1)
    containers := containers
    parallel := decide (1 < containers.length)
    special := false
    cycles := []
    description := "Migrate containers with dependency level " ++ toString lvl }

/-- The level-based phases, one per level in ascending level order. -/
def phasesOfLevels (levels : List (Nat × List String)) : List Phase :=
  (sortedLevels levels).map (mkLevelPhase levels)

/-- The parallel-group records, one per level with more than one
container. -/
def parallelGroupsOfLevels (levels : List (Nat × List String)) :
    List ParallelGroup :=
  (sortedLevels levels).filterMap (fun lvl =>
    let containers := levelContainers levels lvl
    if 1 < containers.length then
      some { phase := lvl + 1
             containers := containers
             reason := "No interdependencies within group" }
    else none)

/-- Model of the cycle-handling block: when cycles were detected and
their node union is nonempty, insert the special cycle-resolution phase
at index 0. -/
def insertCyclePhase (cycles : List (List String)) (phases : List Phase) :
    List Phase :=
  if cycles = [] then phases
  else
    let cycle_containers := cycles.flatten.dedup
    if cycle_containers = [] then phases
    else
      { name := "Phase 0 - Cycle Resolution"
        containers := cycle_containers
        parallel := false
        special := true
        cycles := cycles
        description :=
          "Containers with circular dependencies - manual intervention required" }
        :: phases

/-- Model of `DependencyMapper.generate_migration_sequence`.  Inputs:
the container-dependency dictionary `cdeps` (only this one is consulted
for level computation), the inventory container list (keys of
`dependencies["containers"]`), and the startup order and cycle list
computed by the earlier stages. -/
def generate_migration_sequence (cdeps : DepMap) (inventory : List String)
    (startup_order : List String) (cycles : List (List String)) :
    MigrationSequence :=
  if startup_order = [] then
    let phases := insertCyclePhase cycles
      [{ name := "Phase 1", containers := inventory, parallel := false,
         special := false, cycles := [], description := "" }]
    { phases := phases
      parallel_groups := []
      sequential_order := inventory
      total_phases := phases.length
      estimated_duration := _estimate_migration_duration phases }
  else
    let levels := levelsLoop cdeps startup_order [] []
    let phases := insertCyclePhase cycles (phasesOfLevels levels)
    { phases := phases
      parallel_groups := parallelGroupsOfLevels levels
      sequential_order := startup_order
      total_phases := phases.length
      estimated_duration := _estimate_migration_duration phases }

/-! ### The pipeline

`build_dependency_graph` merges the container, network, volume and
compose dependency dictionaries (in that order) into `all_dependencies`
and computes cycles and the startup order from it;
`generate_migration_sequence` then consumes those results together with
`self.container_dependencies` (container facts only) and the inventory.
`cfacts` are the container-dependency facts and `ofacts` the facts of
the other three kinds. -/

/-- The dependency-level dictionary the pipeline computes (empty when
the startup order is empty, since the level loop then never runs). -/
def pipelineLevels (cfacts ofacts : List (String × String)) :
    List (Nat × List String) :=
  levelsLoop (buildDeps cfacts)
    (_calculate_startup_order (buildDeps (cfacts ++ ofacts))) [] []

/-- The full analysis pipeline from relationship facts and inventory to
the migration sequence. -/
def pipeline (cfacts ofacts : List (String × String))
    (inventory : List String) : MigrationSequence :=
  let deps := buildDeps (cfacts ++ ofacts)
  generate_migration_sequence (buildDeps cfacts) inventory
    (_calculate_startup_order deps) (_detect_cycles deps)

/-! ### Specification predicates and ghost instrumentation -/

/-- A list of nodes is topologically certified when every listed node's
dependencies appear in the list at a strictly earlier index. -/
def TopoList (deps : DepMap) (f : List String) : Prop :=
  ∀ s ∈ f, ∀ t ∈ lookup deps s, t ∈ f ∧ f.indexOf t < f.indexOf s

instance (deps : DepMap) (f : List String) : Decidable (TopoList deps f) :=
  inferInstanceAs
    (Decidable (∀ s ∈ f, ∀ t ∈ lookup deps s, t ∈ f ∧ f.indexOf t < f.indexOf s))

/-- The number of dependencies of `n` not yet in `order`; the value the
Kahn loop keeps in `in_degree[n]`. -/
def remaining (deps : DepMap) (order : List String) (n : String) : Nat :=
  ((lookup deps n).filter (fun t => decide (t ∉ order))).length

/-- Invariant of the Kahn loop state: the emitted order and the queue
are duplicate-free graph nodes, `in_degree` counts unemitted
dependencies, queued nodes have all dependencies emitted, unprocessed
nodes still have an unemitted dependency, and the emitted order is
topologically certified. -/
structure KahnInv (deps : DepMap) (queue order : List String)
    (deg : String → Int) : Prop where
  nodup : (order ++ queue).Nodup
  mem : ∀ n ∈ order ++ queue, n ∈ allNodesList deps
  degEq : ∀ n, deg n = (remaining deps order n : Int)
  queueDone : ∀ n ∈ queue, ∀ t ∈ lookup deps n, t ∈ order
  unseen : ∀ n ∈ allNodesList deps, n ∉ order → n ∉ queue →
    ∃ t ∈ lookup deps n, t ∉ order
  topo : TopoList deps order

/-- Ghost-instrumented `dfs`: identical to `dfs` except that it also
threads the list of finished nodes (appended when a node's neighbor
loop completes, i.e. at the Python `rec_stack.remove` / `path.pop`
point).  The state is `(visited, finished, cycles)`. -/
def dfsG (deps : DepMap) : Nat → String → List String → List String →
    List String → List (List String) →
    List String × List String × List (List String)
  | fuel, node, visited, finished, path, cycles =>
    if node ∈ path then
      (visited, finished, cycles ++ [path.drop (path.indexOf node) ++ [node]])
    else if node ∈ visited then (visited, finished, cycles)
    else match fuel with
      | 0 => (visited, finished, cycles)
      | fuel' + 1 =>
          let r := foldSt
            (fun nb st => dfsG deps fuel' nb st.1 st.2.1 (path ++ [node]) st.2.2)
            (lookup deps node) (visited ++ [node], finished, cycles)
          (r.1, r.2.1 ++ [node], r.2.2)

/-- Ghost-instrumented outer loop of `_detect_cycles`. -/
def detectLoopG (deps : DepMap) (fuel : Nat) :
    List (String × List String) →
    List String × List String × List (List String) →
    List String × List String × List (List String)
  | [], st => st
  | p :: ps, st =>
      detectLoopG deps fuel ps
        (if p.1 ∈ st.1 then st else dfsG deps fuel p.1 st.1 st.2.1 [] st.2.2)

/-- Invariant of the DFS state: the path is part of the visited set,
every visited node is finished or on the path, finished nodes are
visited, both lists are duplicate-free graph nodes, and the finished
list is topologically certified. -/
structure DfsInv (deps : DepMap) (visited finished path : List String) :
    Prop where
  pathVis : path ⊆ visited
  visCover : ∀ x ∈ visited, x ∈ finished ∨ x ∈ path
  finVis : finished ⊆ visited
  finNodup : finished.Nodup
  visNodup : visited.Nodup
  visNodes : visited ⊆ allNodesList deps
  topo : TopoList deps finished

/-- A recorded cycle of `_detect_cycles` is a genuine graph cycle with
its first node appended once more at the end. -/
def ClosedWalk (deps : DepMap) (r : List String) : Prop :=
  ∃ a l, IsCycle deps (a :: l) ∧ r = a :: (l ++ [a])

/-! ## Theorems

Basic facts about `lookup`, the node list, cycles and topological
certificates. -/

theorem lookup_eq_nil_of_not_key {deps : DepMap} {n : String}
    (h : n ∉ deps.map Prod.fst) : lookup deps n = [] := by
  induction deps with
  | nil => rfl
  | cons p ps ih =>
      simp only [List.map_cons, List.mem_cons] at h
      push_neg at h
      rw [lookup, if_neg (fun hh => h.1 hh.symm)]
      exact ih h.2

theorem key_of_lookup_ne_nil {deps : DepMap} {n : String}
    (h : lookup deps n ≠ []) : n ∈ deps.map Prod.fst := by
  by_contra hk
  exact h (lookup_eq_nil_of_not_key hk)

theorem exists_entry_of_mem_lookup {deps : DepMap} {n t : String}
    (h : t ∈ lookup deps n) : ∃ l, (n, l) ∈ deps ∧ t ∈ l := by
  induction deps with
  | nil => simp [lookup] at h
  | cons p ps ih =>
      rw [lookup] at h
      by_cases hp : p.1 = n
      · rw [if_pos hp] at h
        refine ⟨p.2, ?_, h⟩
        rw [← hp]
        exact List.mem_cons_self _ _
      · rw [if_neg hp] at h
        obtain ⟨l, hl, ht⟩ := ih h
        exact ⟨l, List.mem_cons_of_mem _ hl, ht⟩

theorem mem_allNodesList_of_key {deps : DepMap} {n : String}
    (h : n ∈ deps.map Prod.fst) : n ∈ allNodesList deps := by
  rw [allNodesList, List.mem_dedup, List.mem_append]
  exact Or.inl h

theorem mem_allNodesList_of_target {deps : DepMap} {n t : String}
    (h : t ∈ lookup deps n) : t ∈ allNodesList deps := by
  obtain ⟨l, hl, ht⟩ := exists_entry_of_mem_lookup h
  rw [allNodesList, List.mem_dedup, List.mem_append]
  refine Or.inr ?_
  rw [List.mem_flatten]
  exact ⟨l, List.mem_map.2 ⟨(n, l), hl, rfl⟩, ht⟩

theorem allNodesList_nodup (deps : DepMap) : (allNodesList deps).Nodup :=
  List.nodup_dedup _

theorem lookup_nodup {deps : DepMap} (hWF : DictWF deps) (n : String) :
    (lookup deps n).Nodup := by
  induction deps with
  | nil => exact List.nodup_nil
  | cons p ps ih =>
      rw [lookup]
      by_cases hp : p.1 = n
      · rw [if_pos hp]
        exact hWF.2 p (List.mem_cons_self _ _)
      · rw [if_neg hp]
        refine ih ⟨?_, ?_⟩
        · exact (List.nodup_cons.1 hWF.1).2
        · exact fun q hq => hWF.2 q (List.mem_cons_of_mem _ hq)

theorem nodup_subset_length_le {l l' : List String} (h : l.Nodup)
    (hs : l ⊆ l') : l.length ≤ l'.length := by
  calc l.length = l.toFinset.card := (List.toFinset_card_of_nodup h).symm
    _ ≤ l'.toFinset.card := by
        refine Finset.card_le_card ?_
        intro x hx
        rw [List.mem_toFinset] at hx ⊢
        exact hs hx
    _ ≤ l'.length := List.toFinset_card_le l'

theorem indexOf_append_self_of_not_mem {l : List String} {x : String}
    (h : x ∉ l) : (l ++ [x]).indexOf x = l.length := by
  rw [List.indexOf_append_of_not_mem h]
  simp

/-- Every node on a cycle has an edge to another node of the cycle. -/
theorem chain_append_next {R : String → String → Prop} :
    ∀ (l : List String) (a b : String), List.Chain R a (l ++ [b]) →
      ∀ y ∈ a :: l, ∃ z ∈ a :: (l ++ [b]), R y z := by
  intro l
  induction l with
  | nil =>
      intro a b hch y hy
      rw [List.nil_append, List.chain_cons] at hch
      rw [List.mem_singleton] at hy
      subst hy
      exact ⟨b, by simp, hch.1⟩
  | cons c l' ih =>
      intro a b hch y hy
      rw [List.cons_append, List.chain_cons] at hch
      rcases List.mem_cons.1 hy with hy | hy
      · subst hy
        exact ⟨c, by simp, hch.1⟩
      · obtain ⟨z, hz, hR⟩ := ih c b hch.2 y hy
        exact ⟨z, by simpa [List.mem_cons, or_assoc] using Or.inr (List.mem_cons.1 hz), hR⟩

theorem exists_edge_of_mem_cycle {deps : DepMap} {c : List String}
    (hc : IsCycle deps c) : ∀ y ∈ c, ∃ z ∈ c, Edge deps y z := by
  match c with
  | [] => exact absurd hc (by simp [IsCycle])
  | a :: l =>
      intro y hy
      obtain ⟨z, hz, hR⟩ := chain_append_next l a a hc y hy
      refine ⟨z, ?_, hR⟩
      rcases List.mem_cons.1 hz with hz | hz
      · exact hz ▸ List.mem_cons_self _ _
      · rcases List.mem_append.1 hz with hz | hz
        · exact List.mem_cons_of_mem _ hz
        · rw [List.mem_singleton] at hz
          exact hz ▸ List.mem_cons_self _ _

/-- A topologically certified list contains no node of any cycle. -/
theorem cycle_not_mem_topoList {deps : DepMap} {f c : List String}
    (htopo : TopoList deps f) (hc : IsCycle deps c) :
    ∀ x ∈ c, x ∉ f := by
  have key : ∀ n, ∀ x ∈ c, x ∈ f → f.indexOf x < n → False := by
    intro n
    induction n with
    | zero => exact fun x _ _ h => absurd h (Nat.not_lt_zero _)
    | succ n ih =>
        intro x hx hxf hlt
        obtain ⟨z, hz, hedge⟩ := exists_edge_of_mem_cycle hc x hx
        obtain ⟨hzf, hidx⟩ := htopo x hxf z hedge
        exact ih z hz hzf (by omega)
  exact fun x hx hxf => key (f.indexOf x + 1) x hx hxf (Nat.lt_succ_self _)

/-- Iterating an edge-producing successor function yields a chain. -/
theorem chain_iterate_edges {deps : DepMap} {F : String → String}
    {P : String → Prop} (hP : ∀ x, P x → P (F x))
    (hE : ∀ x, P x → Edge deps x (F x)) :
    ∀ (m : Nat) (x : String), P x →
      List.Chain (Edge deps) x ((List.range m).map (fun k => F^[k+1] x)) := by
  intro m
  induction m with
  | zero => intro x _; simp [List.Chain.nil]
  | succ m ih =>
      intro x hx
      have h1 : (List.range (m + 1)).map (fun k => F^[k+1] x)
          = F x :: (List.range m).map (fun k => F^[k+1] (F x)) := by
        rw [List.range_succ_eq_map, List.map_cons, List.map_map]
        exact rfl
      rw [h1, List.chain_cons]
      exact ⟨hE x hx, ih (F x) (hP x hx)⟩

/-- A fixed point of an iterated in-set successor function yields a
cycle. -/
theorem isCycle_of_iterate_fixed {deps : DepMap} {F : String → String}
    {P : String → Prop} (hP : ∀ x, P x → P (F x))
    (hE : ∀ x, P x → Edge deps x (F x)) {x : String} {m : Nat}
    (hm : 0 < m) (hx : P x) (hfix : F^[m] x = x) :
    ∃ c, IsCycle deps c := by
  refine ⟨x :: (List.range (m - 1)).map (fun k => F^[k+1] x), ?_⟩
  rw [IsCycle]
  have hm1 : m - 1 + 1 = m := Nat.succ_pred_eq_of_pos hm
  have hlist : (List.range (m - 1)).map (fun k => F^[k+1] x) ++ [x]
      = (List.range m).map (fun k => F^[k+1] x) := by
    conv_rhs => rw [← hm1]
    rw [List.range_succ, List.map_append]
    simp only [List.map_cons, List.map_nil]
    congr 1
    rw [hm1, hfix]
  rw [hlist]
  exact chain_iterate_edges hP hE m x hx

/-- A nonempty node set closed under taking one dependency inside the
set contains a cycle. -/
theorem exists_cycle_of_closed {deps : DepMap} {S : List String}
    (hne : S ≠ []) (hcl : ∀ n ∈ S, ∃ t ∈ lookup deps n, t ∈ S) :
    ∃ c, IsCycle deps c := by
  classical
  have hFex : ∀ n, ∃ m, n ∈ S → (m ∈ lookup deps n ∧ m ∈ S) := by
    intro n
    by_cases hn : n ∈ S
    · obtain ⟨t, ht, hts⟩ := hcl n hn
      exact ⟨t, fun _ => ⟨ht, hts⟩⟩
    · exact ⟨n, fun h => absurd h hn⟩
  choose F hFspec using hFex
  have hP : ∀ x, x ∈ S → F x ∈ S := fun x hx => (hFspec x hx).2
  have hE : ∀ x, x ∈ S → Edge deps x (F x) := fun x hx => (hFspec x hx).1
  obtain ⟨x₀, hx₀⟩ : ∃ x, x ∈ S := by
    cases S with
    | nil => exact absurd rfl hne
    | cons a _ => exact ⟨a, List.mem_cons_self _ _⟩
  have hiter : ∀ k, F^[k] x₀ ∈ S := by
    intro k
    induction k with
    | zero => simpa
    | succ k ih =>
        rw [Function.iterate_succ_apply']
        exact hP _ ih
  have hmaps : ∀ k ∈ Finset.range (S.length + 1), F^[k] x₀ ∈ S.toFinset := by
    intro k _
    rw [List.mem_toFinset]
    exact hiter k
  have hcard : S.toFinset.card < (Finset.range (S.length + 1)).card := by
    rw [Finset.card_range]
    exact Nat.lt_succ_of_le (List.toFinset_card_le S)
  obtain ⟨i, _, j, _, hij, heq⟩ :=
    Finset.exists_ne_map_eq_of_card_lt_of_maps_to hcard hmaps
  rcases Nat.lt_or_ge i j with hlt | hge
  · refine isCycle_of_iterate_fixed (P := (· ∈ S)) hP hE
      (x := F^[i] x₀) (m := j - i) (by omega) (hiter i) ?_
    rw [← Function.iterate_add_apply]
    have : j - i + i = j := by omega
    rw [this, heq]
  · have hlt : j < i := by omega
    refine isCycle_of_iterate_fixed (P := (· ∈ S)) hP hE
      (x := F^[j] x₀) (m := i - j) (by omega) (hiter j) ?_
    rw [← Function.iterate_add_apply]
    have : i - j + j = i := by omega
    rw [this, heq]

/-! ### Graph-builder characterization -/

theorem mem_addTarget {ts : List String} {t x : String} :
    x ∈ addTarget ts t ↔ x ∈ ts ∨ x = t := by
  rw [addTarget]
  by_cases h : t ∈ ts
  · rw [if_pos h]
    constructor
    · exact Or.inl
    · rintro (hx | rfl)
      · exact hx
      · exact h
  · rw [if_neg h]
    simp

theorem addTarget_nodup {ts : List String} (h : ts.Nodup) (t : String) :
    (addTarget ts t).Nodup := by
  rw [addTarget]
  by_cases ht : t ∈ ts
  · rwa [if_pos ht]
  · rw [if_neg ht]
    simpa [List.nodup_append] using ⟨h, ht⟩

theorem addTarget_ne_nil (ts : List String) (t : String) :
    addTarget ts t ≠ [] := by
  rw [addTarget]
  by_cases ht : t ∈ ts
  · rw [if_pos ht]
    exact List.ne_nil_of_mem ht
  · rw [if_neg ht]
    simp

theorem lookup_nil_eq (n : String) : lookup [] n = [] := rfl

theorem lookup_cons_eq (p : String × List String) (ps : DepMap) (n : String) :
    lookup (p :: ps) n = if p.1 = n then p.2 else lookup ps n := rfl

theorem lookup_addFact (d : DepMap) (f : String × String) (n : String) :
    lookup (addFact d f) n =
      if n = f.1 then addTarget (lookup d f.1) f.2 else lookup d n := by
  induction d with
  | nil =>
      show lookup [(f.1, [f.2])] n = _
      rw [lookup_cons_eq]
      by_cases h : f.1 = n
      · rw [if_pos h, if_pos h.symm]
        rfl
      · rw [if_neg h, if_neg (fun hh => h hh.symm)]
  | cons p ps ih =>
      rw [addFact]
      by_cases hp : p.1 = f.1
      · rw [if_pos hp]
        have hval : lookup (p :: ps) f.1 = p.2 := by
          rw [lookup_cons_eq, if_pos hp]
        rw [hval, lookup_cons_eq]
        by_cases hn : p.1 = n
        · rw [if_pos hn, if_pos (hn.symm.trans hp)]
        · rw [if_neg hn, if_neg (fun hh => hn (hp.trans hh.symm)),
            lookup_cons_eq, if_neg hn]
      · rw [if_neg hp]
        have h1 : lookup (p :: ps) f.1 = lookup ps f.1 := by
          rw [lookup_cons_eq, if_neg hp]
        rw [h1, lookup_cons_eq]
        by_cases hn : p.1 = n
        · rw [if_pos hn, if_neg (fun hh => hp (hn.trans hh)),
            lookup_cons_eq, if_pos hn]
        · rw [if_neg hn, ih, lookup_cons_eq, if_neg hn]

theorem mem_lookup_buildAux (facts : List (String × String)) :
    ∀ (acc : DepMap) (n t : String),
      t ∈ lookup (buildAux acc facts) n ↔ t ∈ lookup acc n ∨ (n, t) ∈ facts := by
  induction facts with
  | nil => intro acc n t; simp [buildAux]
  | cons f fs ih =>
      intro acc n t
      rw [buildAux, ih]
      rw [lookup_addFact]
      by_cases h : n = f.1
      · rw [if_pos h, mem_addTarget]
        subst h
        constructor
        · rintro ((h1 | h2) | h3)
          · exact Or.inl h1
          · subst h2
            exact Or.inr (List.mem_cons_self _ _)
          · exact Or.inr (List.mem_cons_of_mem _ h3)
        · rintro (h1 | h2)
          · exact Or.inl (Or.inl h1)
          · rcases List.mem_cons.1 h2 with h2 | h2
            · exact Or.inl (Or.inr (congrArg Prod.snd h2.symm ▸ rfl))
            · exact Or.inr h2
      · rw [if_neg h]
        constructor
        · rintro (h1 | h2)
          · exact Or.inl h1
          · exact Or.inr (List.mem_cons_of_mem _ h2)
        · rintro (h1 | h2)
          · exact Or.inl h1
          · rcases List.mem_cons.1 h2 with h2 | h2
            · exact absurd (congrArg Prod.fst h2) h
            · exact Or.inr h2

/-- A dependency is in the merged dictionary exactly when some fact
recorded it. -/
theorem mem_lookup_buildDeps {facts : List (String × String)} {n t : String} :
    t ∈ lookup (buildDeps facts) n ↔ (n, t) ∈ facts := by
  rw [buildDeps, mem_lookup_buildAux]
  simp [lookup]

theorem addFact_keys (d : DepMap) (f : String × String) :
    (addFact d f).map Prod.fst =
      if f.1 ∈ d.map Prod.fst then d.map Prod.fst
      else d.map Prod.fst ++ [f.1] := by
  induction d with
  | nil => simp [addFact]
  | cons p ps ih =>
      rw [addFact]
      by_cases hp : p.1 = f.1
      · rw [if_pos hp]
        have : f.1 ∈ (p :: ps).map Prod.fst := by
          rw [List.map_cons]
          exact hp ▸ List.mem_cons_self _ _
        rw [if_pos this, List.map_cons, List.map_cons]
      · rw [if_neg hp, List.map_cons, List.map_cons, ih]
        by_cases hf : f.1 ∈ ps.map Prod.fst
        · rw [if_pos hf, if_pos (List.mem_cons_of_mem _ hf)]
        · rw [if_neg hf, if_neg (by
            rw [List.mem_cons]
            rintro (h | h)
            · exact hp h.symm
            · exact hf h)]
          rw [List.cons_append]

theorem addFact_keys_nodup {d : DepMap} (h : (d.map Prod.fst).Nodup)
    (f : String × String) : ((addFact d f).map Prod.fst).Nodup := by
  rw [addFact_keys]
  by_cases hf : f.1 ∈ d.map Prod.fst
  · rwa [if_pos hf]
  · rw [if_neg hf, List.nodup_append]
    refine ⟨h, List.nodup_singleton _, ?_⟩
    intro a ha hb
    rw [List.mem_singleton] at hb
    subst hb
    exact hf ha

theorem addFact_values_nodup {d : DepMap} (h : ∀ p ∈ d, p.2.Nodup)
    (f : String × String) : ∀ p ∈ addFact d f, p.2.Nodup := by
  induction d with
  | nil =>
      intro p hp
      rw [addFact] at hp
      rw [List.mem_singleton] at hp
      subst hp
      simp
  | cons q qs ih =>
      intro p hp
      rw [addFact] at hp
      by_cases hq : q.1 = f.1
      · rw [if_pos hq] at hp
        rcases List.mem_cons.1 hp with hp | hp
        · subst hp
          exact addTarget_nodup (h q (List.mem_cons_self _ _)) _
        · exact h p (List.mem_cons_of_mem _ hp)
      · rw [if_neg hq] at hp
        rcases List.mem_cons.1 hp with hp | hp
        · subst hp
          exact h p (List.mem_cons_self _ _)
        · exact ih (fun r hr => h r (List.mem_cons_of_mem _ hr)) p hp

theorem addFact_values_ne_nil {d : DepMap} (h : ∀ p ∈ d, p.2 ≠ [])
    (f : String × String) : ∀ p ∈ addFact d f, p.2 ≠ [] := by
  induction d with
  | nil =>
      intro p hp
      rw [addFact] at hp
      rw [List.mem_singleton] at hp
      subst hp
      simp
  | cons q qs ih =>
      intro p hp
      rw [addFact] at hp
      by_cases hq : q.1 = f.1
      · rw [if_pos hq] at hp
        rcases List.mem_cons.1 hp with hp | hp
        · subst hp
          exact addTarget_ne_nil _ _
        · exact h p (List.mem_cons_of_mem _ hp)
      · rw [if_neg hq] at hp
        rcases List.mem_cons.1 hp with hp | hp
        · subst hp
          exact h p (List.mem_cons_self _ _)
        · exact ih (fun r hr => h r (List.mem_cons_of_mem _ hr)) p hp

/-- The accumulated dependency dictionary satisfies the dictionary
representation invariant. -/
theorem buildDeps_WF (facts : List (String × String)) :
    DictWF (buildDeps facts) := by
  rw [buildDeps]
  suffices h : ∀ (acc : DepMap), DictWF acc → DictWF (buildAux acc facts) from
    h [] ⟨List.nodup_nil, by simp⟩
  induction facts with
  | nil => intro acc hacc; exact hacc
  | cons f fs ih =>
      intro acc hacc
      rw [buildAux]
      exact ih _ ⟨addFact_keys_nodup hacc.1 f, addFact_values_nodup hacc.2 f⟩

theorem buildDeps_values_ne_nil (facts : List (String × String)) :
    ∀ p ∈ buildDeps facts, p.2 ≠ [] := by
  rw [buildDeps]
  suffices h : ∀ (acc : DepMap), (∀ p ∈ acc, p.2 ≠ []) →
      ∀ p ∈ buildAux acc facts, p.2 ≠ [] from h [] (by simp)
  induction facts with
  | nil => intro acc hacc; exact hacc
  | cons f fs ih =>
      intro acc hacc
      rw [buildAux]
      exact ih _ (addFact_values_ne_nil hacc f)

theorem lookup_ne_nil_of_key {d : DepMap} (hvals : ∀ p ∈ d, p.2 ≠ [])
    {n : String} (h : n ∈ d.map Prod.fst) : lookup d n ≠ [] := by
  induction d with
  | nil => simp at h
  | cons p ps ih =>
      rw [lookup_cons_eq]
      by_cases hp : p.1 = n
      · rw [if_pos hp]
        exact hvals p (List.mem_cons_self _ _)
      · rw [if_neg hp]
        rw [List.map_cons, List.mem_cons] at h
        rcases h with h | h
        · exact absurd h.symm hp
        · exact ih (fun q hq => hvals q (List.mem_cons_of_mem _ hq)) h

/-- A node is a key of the merged dictionary exactly when it is the
source of some fact. -/
theorem key_buildDeps_iff {facts : List (String × String)} {n : String} :
    n ∈ (buildDeps facts).map Prod.fst ↔ ∃ t, (n, t) ∈ facts := by
  constructor
  · intro h
    have hne := lookup_ne_nil_of_key (buildDeps_values_ne_nil facts) h
    obtain ⟨t, ht⟩ := List.exists_mem_of_ne_nil _ hne
    exact ⟨t, mem_lookup_buildDeps.1 ht⟩
  · rintro ⟨t, ht⟩
    exact key_of_lookup_ne_nil
      (List.ne_nil_of_mem (mem_lookup_buildDeps.2 ht))

/-- When the keys are distinct, `lookup` returns exactly the stored
entry. -/
theorem lookup_of_mem_of_nodup_keys {d : DepMap}
    (hkeys : (d.map Prod.fst).Nodup) {n : String} {l : List String}
    (h : (n, l) ∈ d) : lookup d n = l := by
  induction d with
  | nil => simp at h
  | cons p ps ih =>
      rw [lookup_cons_eq]
      rcases List.mem_cons.1 h with h | h
      · rw [← h]
        rw [if_pos rfl]
      · by_cases hp : p.1 = n
        · exfalso
          have : n ∈ ps.map Prod.fst := List.mem_map.2 ⟨(n, l), h, rfl⟩
          rw [List.map_cons] at hkeys
          exact (List.nodup_cons.1 hkeys).1 (hp ▸ this)
        · rw [if_neg hp]
          exact ih (List.nodup_cons.1 (List.map_cons Prod.fst p ps ▸ hkeys)).2 h

/-- Membership in the built node list, in terms of the input facts. -/
theorem mem_nodes_build_iff {facts : List (String × String)} {n : String} :
    n ∈ (build_dependency_graph facts).nodes ↔
      (∃ t, (n, t) ∈ facts) ∨ (∃ s, (s, n) ∈ facts) := by
  rw [build_dependency_graph]
  show n ∈ allNodesList (buildDeps facts) ↔ _
  rw [allNodesList, List.mem_dedup, List.mem_append]
  constructor
  · rintro (h | h)
    · exact Or.inl (key_buildDeps_iff.1 h)
    · rw [List.mem_flatten] at h
      obtain ⟨l, hl, hn⟩ := h
      rw [List.mem_map] at hl
      obtain ⟨p, hp, rfl⟩ := hl
      have hpe : (p.1, p.2) ∈ buildDeps facts := by
        rw [Prod.mk.eta]
        exact hp
      have : n ∈ lookup (buildDeps facts) p.1 := by
        rw [lookup_of_mem_of_nodup_keys (buildDeps_WF facts).1 hpe]
        exact hn
      exact Or.inr ⟨p.1, mem_lookup_buildDeps.1 this⟩
  · rintro (⟨t, ht⟩ | ⟨s, hs⟩)
    · exact Or.inl (key_buildDeps_iff.2 ⟨t, ht⟩)
    · refine Or.inr ?_
      have := mem_lookup_buildDeps.2 hs
      obtain ⟨l, hl, hn⟩ := exists_entry_of_mem_lookup this
      rw [List.mem_flatten]
      exact ⟨l, List.mem_map.2 ⟨(s, l), hl, rfl⟩, hn⟩

/-- Membership in the built edge list, in terms of the input facts. -/
theorem mem_edges_build_iff {facts : List (String × String)}
    {s t : String} :
    (s, t) ∈ (build_dependency_graph facts).edges ↔ (s, t) ∈ facts := by
  rw [build_dependency_graph]
  show (s, t) ∈ ((buildDeps facts).map fun p => p.2.map fun u => (p.1, u)).flatten ↔ _
  rw [show ((s, t) ∈ facts) ↔ t ∈ lookup (buildDeps facts) s from
    mem_lookup_buildDeps.symm]
  rw [List.mem_flatten]
  constructor
  · rintro ⟨l, hl, hst⟩
    rw [List.mem_map] at hl
    obtain ⟨p, hp, rfl⟩ := hl
    rw [List.mem_map] at hst
    obtain ⟨u, hu, huv⟩ := hst
    have h1 : p.1 = s := congrArg Prod.fst huv
    have h2 : u = t := congrArg Prod.snd huv
    have hps : (s, p.2) ∈ buildDeps facts := by
      rw [← h1, Prod.mk.eta]
      exact hp
    rw [lookup_of_mem_of_nodup_keys (buildDeps_WF facts).1 hps]
    exact h2 ▸ hu
  · intro h
    obtain ⟨l, hl, ht⟩ := exists_entry_of_mem_lookup h
    exact ⟨l.map fun u => (s, u), List.mem_map.2 ⟨(s, l), hl, rfl⟩,
      List.mem_map.2 ⟨t, ht, rfl⟩⟩

/-- The built edge list contains each ordered pair at most once. -/
theorem edges_build_nodup (facts : List (String × String)) :
    (build_dependency_graph facts).edges.Nodup := by
  rw [build_dependency_graph]
  show (((buildDeps facts).map fun p => p.2.map fun u => (p.1, u)).flatten).Nodup
  have hWF := buildDeps_WF facts
  generalize hd : buildDeps facts = d at hWF
  clear hd
  induction d with
  | nil => simp
  | cons p ps ih =>
      rw [List.map_cons, List.flatten_cons, List.nodup_append]
      refine ⟨?_, ?_, ?_⟩
      · exact (hWF.2 p (List.mem_cons_self _ _)).map_on
          (fun a _ b _ h => congrArg Prod.snd h)
      · exact ih ⟨(List.nodup_cons.1 hWF.1).2,
          fun q hq => hWF.2 q (List.mem_cons_of_mem _ hq)⟩
      · intro e he he'
        rw [List.mem_map] at he
        obtain ⟨u, _, rfl⟩ := he
        rw [List.mem_flatten] at he'
        obtain ⟨l, hl, hel⟩ := he'
        rw [List.mem_map] at hl
        obtain ⟨q, hq, rfl⟩ := hl
        rw [List.mem_map] at hel
        obtain ⟨v, _, hv⟩ := hel
        have hq1 : q.1 = p.1 := (Prod.ext_iff.1 hv).1
        have hp1 : p.1 ∈ ps.map Prod.fst := hq1 ▸ List.mem_map.2 ⟨q, hq, rfl⟩
        exact (List.nodup_cons.1 hWF.1).1 hp1

/-! ### Claim C6: graph-builder contract -/

/-- C6: For every list of relationship facts, the graph built by
`build_dependency_graph` has node set equal to the union of all source
and target identifiers across all facts (including dependency targets
never observed in the inventory), its edge set contains exactly one edge
per distinct ordered `(source, target)` pair regardless of how many
fact kinds produced that pair, and every endpoint of every edge is
present in the node set. -/
theorem build_graph_nodes_edges (facts : List (String × String)) :
    (∀ n, n ∈ (build_dependency_graph facts).nodes ↔
      (∃ t, (n, t) ∈ facts) ∨ (∃ s, (s, n) ∈ facts)) ∧
    (∀ s t, (s, t) ∈ (build_dependency_graph facts).edges ↔ (s, t) ∈ facts) ∧
    (build_dependency_graph facts).edges.Nodup ∧
    (∀ e ∈ (build_dependency_graph facts).edges,
      e.1 ∈ (build_dependency_graph facts).nodes ∧
      e.2 ∈ (build_dependency_graph facts).nodes) := by
  refine ⟨fun n => mem_nodes_build_iff, fun s t => mem_edges_build_iff,
    edges_build_nodup facts, ?_⟩
  intro e he
  have h : (e.1, e.2) ∈ facts := mem_edges_build_iff.1 (Prod.mk.eta ▸ he)
  exact ⟨mem_nodes_build_iff.2 (Or.inl ⟨e.2, h⟩),
    mem_nodes_build_iff.2 (Or.inr ⟨e.1, h⟩)⟩

/-- Witness for C6 at a concrete fact list with a duplicated pair. -/
theorem build_graph_nodes_edges_witness :
    ("A", "B") ∈ (build_dependency_graph [("A", "B"), ("A", "B"), ("C", "A")]).edges ∧
    (build_dependency_graph [("A", "B"), ("A", "B"), ("C", "A")]).edges.Nodup := by
  refine ⟨?_, (build_graph_nodes_edges [("A", "B"), ("A", "B"), ("C", "A")]).2.2.1⟩
  exact ((build_graph_nodes_edges [("A", "B"), ("A", "B"), ("C", "A")]).2.1 "A" "B").2
    (by decide)

/-! ### Claim C7: self-loops are not filtered -/

/-- C7 counterexample: the claim says the Graph Builder filters
self-loops before edge insertion, so that the edge list never contains
an edge whose source equals its target.  On the input fact
`("A", "A")`, the built edge list does contain the self-loop. -/
theorem self_loop_not_filtered_counterexample :
    ("A", "A") ∈ (build_dependency_graph [("A", "A")]).edges := by decide

/-- C7 (amended): the Graph Builder does not filter self-loops: a fact
with `source == target` yields a self-loop edge in the built graph. -/
theorem self_loop_edge_inserted {facts : List (String × String)}
    {s : String} (h : (s, s) ∈ facts) :
    (s, s) ∈ (build_dependency_graph facts).edges :=
  mem_edges_build_iff.2 h

/-- Witness for the amended C7 at the concrete self-loop fact. -/
theorem self_loop_edge_inserted_witness :
    ("A", "A") ∈ [("A", "A")] ∧
    ("A", "A") ∈ (build_dependency_graph [("A", "A")]).edges :=
  ⟨by decide, self_loop_edge_inserted (by decide)⟩

/-! ### Claim C2: shape of a recorded cycle -/

/-- C2 counterexample: the claim says the recorded cycle does not
repeat the starting node, so for the two-node cycle the stored list
would be `[[X, Y]]` (or `[[Y, X]]`).  The code stores
`path[cycle_start:] + [node]`, which repeats the starting node, so the
result is neither. -/
theorem detect_cycles_shape_counterexample :
    _detect_cycles [("X", ["Y"]), ("Y", ["X"])] ≠ [["X", "Y"]] ∧
    _detect_cycles [("X", ["Y"]), ("Y", ["X"])] ≠ [["Y", "X"]] := by decide

/-- C2 (amended): the recorded cycle is the path slice from the first
stack occurrence of the repeated node to the stack top, followed by the
repeated node once more; for the two-node cycle the stored list is
`[[X, Y, X]]` (or `[[Y, X, Y]]` depending on traversal start). -/
theorem detect_cycles_records_closed_walk :
    _detect_cycles [("X", ["Y"]), ("Y", ["X"])] = [["X", "Y", "X"]] ∧
    _detect_cycles [("Y", ["X"]), ("X", ["Y"])] = [["Y", "X", "Y"]] := by decide

/-! ### Claim C8: duration estimator -/

/-- C8 counterexample: the claim says `estimated_parallel_minutes`
equals the per-phase sum (for one parallel phase of 3 nodes,
`5 × 0.7 = 3.5`).  The code stores `int(parallel_minutes)`, which
truncates 3.5 to 3. -/
theorem estimator_parallel_minutes_counterexample :
    (_estimate_migration_duration
      [{ name := "Phase 1", containers := ["a", "b", "c"], parallel := true,
         special := false, cycles := [], description := "" }]).estimated_parallel_minutes = 3 ∧
    ¬ (((_estimate_migration_duration
      [{ name := "Phase 1", containers := ["a", "b", "c"], parallel := true,
         special := false, cycles := [], description := "" }]).estimated_parallel_minutes : ℚ)
        = base_time_per_container * parallel_efficiency) := by
  constructor
  · simp only [_estimate_migration_duration]
    norm_num [pyInt, base_time_per_container, parallel_efficiency]
  · simp only [_estimate_migration_duration]
    norm_num [pyInt, base_time_per_container, parallel_efficiency]

/-- C8 (amended): `estimated_sequential_minutes` is the node count
times 5, `estimated_parallel_minutes` is the integer truncation of the
per-phase sum, and `time_savings_percent` is the rounded percentage;
for a single parallel phase of 3 independent nodes the estimator
reports sequential = 15 minutes, parallel = 3 minutes (truncated from
3.5) and savings 76.7 percent. -/
theorem estimator_example_values :
    (_estimate_migration_duration
      [{ name := "Phase 1", containers := ["a", "b", "c"], parallel := true,
         special := false, cycles := [], description := "" }]).estimated_sequential_minutes = 15 ∧
    (_estimate_migration_duration
      [{ name := "Phase 1", containers := ["a", "b", "c"], parallel := true,
         special := false, cycles := [], description := "" }]).estimated_parallel_minutes = 3 ∧
    (_estimate_migration_duration
      [{ name := "Phase 1", containers := ["a", "b", "c"], parallel := true,
         special := false, cycles := [], description := "" }]).time_savings_percent = 767 / 10 := by
  refine ⟨?_, ?_, ?_⟩
  · simp only [_estimate_migration_duration]
    norm_num [base_time_per_container]
  · simp only [_estimate_migration_duration]
    norm_num [pyInt, base_time_per_container, parallel_efficiency]
  · simp only [_estimate_migration_duration]
    norm_num [round1, round_eq, base_time_per_container, parallel_efficiency]

/-! ### Kahn's algorithm: supporting lemmas -/

theorem revAdj_sublist_keys (deps : DepMap) (t : String) :
    List.Sublist (revAdj deps t) (deps.map Prod.fst) := by
  induction deps with
  | nil => simp [revAdj]
  | cons p ps ih =>
      rw [revAdj, List.filterMap_cons]
      by_cases hp : t ∈ p.2
      · rw [if_pos hp]
        exact List.Sublist.cons₂ _ ih
      · rw [if_neg hp]
        exact List.Sublist.cons _ ih

theorem revAdj_nodup {deps : DepMap} (hWF : DictWF deps) (t : String) :
    (revAdj deps t).Nodup :=
  hWF.1.sublist (revAdj_sublist_keys deps t)

theorem mem_revAdj_iff {deps : DepMap} (hWF : DictWF deps) {s t : String} :
    s ∈ revAdj deps t ↔ t ∈ lookup deps s := by
  constructor
  · intro h
    rw [revAdj, List.mem_filterMap] at h
    obtain ⟨p, hp, hps⟩ := h
    by_cases hcond : t ∈ p.2
    · rw [if_pos hcond] at hps
      have hp1 : p.1 = s := Option.some_injective _ hps
      have hpe : (s, p.2) ∈ deps := by
        rw [← hp1, Prod.mk.eta]
        exact hp
      rw [lookup_of_mem_of_nodup_keys hWF.1 hpe]
      exact hcond
    · rw [if_neg hcond] at hps
      exact absurd hps (by simp)
  · intro h
    obtain ⟨l, hl, ht⟩ := exists_entry_of_mem_lookup h
    rw [revAdj, List.mem_filterMap]
    exact ⟨(s, l), hl, by rw [if_pos ht]⟩

theorem remaining_nil_order (deps : DepMap) (n : String) :
    remaining deps [] n = (lookup deps n).length := by
  rw [remaining]
  congr 1
  apply List.filter_eq_self.2
  intro t _
  simp

theorem remaining_eq_zero_iff {deps : DepMap} {order : List String}
    {n : String} :
    remaining deps order n = 0 ↔ ∀ t ∈ lookup deps n, t ∈ order := by
  rw [remaining, List.length_eq_zero, List.filter_eq_nil_iff]
  simp

theorem remaining_pos {deps : DepMap} {order : List String} {n x : String}
    (hx : x ∈ lookup deps n) (hxo : x ∉ order) :
    0 < remaining deps order n := by
  rw [remaining]
  refine List.length_pos_of_mem (a := x) ?_
  rw [List.mem_filter]
  exact ⟨hx, by simpa using hxo⟩

theorem remaining_append_of_not_mem_lookup {deps : DepMap}
    {order : List String} {n x : String} (hx : x ∉ lookup deps n) :
    remaining deps (order ++ [x]) n = remaining deps order n := by
  rw [remaining, remaining]
  congr 1
  apply List.filter_congr
  intro t ht
  have htx : t ≠ x := fun hh => hx (hh ▸ ht)
  simp [List.mem_append, htx]

theorem filter_length_drop_one {order : List String} {x : String} :
    ∀ {l : List String}, l.Nodup → x ∈ l → x ∉ order →
      (l.filter (fun t => decide (t ∉ (order ++ [x])))).length + 1
        = (l.filter (fun t => decide (t ∉ order))).length := by
  intro l
  induction l with
  | nil => intro _ h; simp at h
  | cons a l' ih =>
      intro hnd hx hxo
      rcases List.mem_cons.1 hx with heq | hx'
      · subst heq
        have hxl' : x ∉ l' := (List.nodup_cons.1 hnd).1
        have hcongr : l'.filter (fun t => decide (t ∉ (order ++ [x])))
            = l'.filter (fun t => decide (t ∉ order)) := by
          apply List.filter_congr
          intro t ht
          have htx : t ≠ x := fun hh => hxl' (hh ▸ ht)
          simp [List.mem_append, htx]
        rw [List.filter_cons, List.filter_cons]
        have c1 : (decide (x ∉ (order ++ [x]))) = false :=
          decide_eq_false (by simp)
        have c2 : (decide (x ∉ order)) = true := decide_eq_true hxo
        rw [c1, c2, if_neg Bool.false_ne_true, if_pos rfl, hcongr]
        simp
      · have hax : a ≠ x := fun hh => (List.nodup_cons.1 hnd).1 (hh ▸ hx')
        rw [List.filter_cons, List.filter_cons]
        by_cases hao : a ∈ order
        · have c1 : (decide (a ∉ (order ++ [x]))) = false :=
            decide_eq_false (fun h => h (List.mem_append_left _ hao))
          have c2 : (decide (a ∉ order)) = false :=
            decide_eq_false (fun h => h hao)
          rw [c1, c2, if_neg Bool.false_ne_true, if_neg Bool.false_ne_true]
          exact ih (List.nodup_cons.1 hnd).2 hx' hxo
        · have c1 : (decide (a ∉ (order ++ [x]))) = true :=
            decide_eq_true (by simp [List.mem_append, hao, hax])
          have c2 : (decide (a ∉ order)) = true := decide_eq_true hao
          rw [c1, c2, if_pos rfl, if_pos rfl]
          simp only [List.length_cons]
          have := ih (List.nodup_cons.1 hnd).2 hx' hxo
          omega

theorem remaining_append_succ {deps : DepMap} {order : List String}
    {n x : String} (hWF : DictWF deps) (hx : x ∈ lookup deps n)
    (hxo : x ∉ order) :
    remaining deps (order ++ [x]) n + 1 = remaining deps order n :=
  filter_length_drop_one (lookup_nodup hWF n) hx hxo

/-- Characterization of one inner Kahn pass over a duplicate-free
dependent list: each listed node's in-degree is decremented once, and
the nodes whose in-degree was 1 are appended to the queue in list
order. -/
theorem kahnStep_spec :
    ∀ (S : List String), S.Nodup → ∀ (queue : List String) (deg : String → Int),
      (kahnStep queue deg S).1
          = queue ++ S.filter (fun s => decide (deg s = 1)) ∧
      ∀ n, (kahnStep queue deg S).2 n = if n ∈ S then deg n - 1 else deg n := by
  intro S
  induction S with
  | nil =>
      intro _ queue deg
      constructor
      · simp [kahnStep]
      · intro n
        simp [kahnStep]
  | cons s rest ih =>
      intro hnd queue deg
      have hsr : s ∉ rest := (List.nodup_cons.1 hnd).1
      have hrest : rest.Nodup := (List.nodup_cons.1 hnd).2
      rw [kahnStep]
      set d' : String → Int := fun n => if n = s then deg n - 1 else deg n with hd'
      set q' : List String := if d' s = 0 then queue ++ [s] else queue with hq'
      obtain ⟨ihq, ihd⟩ := ih hrest q' d'
      constructor
      · rw [ihq]
        have hds : d' s = deg s - 1 := by rw [hd']; simp
        have hfilter : rest.filter (fun n => decide (d' n = 1))
            = rest.filter (fun n => decide (deg n = 1)) := by
          apply List.filter_congr
          intro t ht
          have hts : t ≠ s := fun hh => hsr (hh ▸ ht)
          rw [hd']
          simp [hts]
        rw [hfilter, List.filter_cons]
        by_cases hcase : deg s = 1
        · have c : (decide (deg s = 1)) = true := decide_eq_true hcase
          rw [c, if_pos rfl, hq', hds]
          have : deg s - 1 = 0 := by omega
          rw [if_pos this]
          simp
        · have c : (decide (deg s = 1)) = false := decide_eq_false hcase
          rw [c, if_neg Bool.false_ne_true, hq', hds]
          have : ¬ (deg s - 1 = 0) := by omega
          rw [if_neg this]
      · intro n
        rw [ihd n]
        by_cases hn : n ∈ rest
        · have hns : n ≠ s := fun hh => hsr (hh ▸ hn)
          rw [if_pos hn, if_pos (List.mem_cons_of_mem _ hn), hd']
          simp [hns]
        · rw [if_neg hn]
          by_cases hns : n = s
          · subst hns
            rw [if_pos (List.mem_cons_self _ _), hd']
            simp
          · rw [if_neg (by simp [hns, hn]), hd']
            simp [hns]

/-- One iteration of Kahn's while loop preserves the invariant: pop `x`
(whose dependencies are all emitted), emit it, and process its
dependents. -/
theorem kahnInv_step {deps : DepMap} (hWF : DictWF deps)
    {x : String} {queue order : List String} {deg : String → Int}
    (inv : KahnInv deps (x :: queue) order deg) :
    KahnInv deps (kahnStep queue deg (revAdj deps x)).1 (order ++ [x])
      (kahnStep queue deg (revAdj deps x)).2 := by
  have hSnd : (revAdj deps x).Nodup := revAdj_nodup hWF x
  obtain ⟨hq, hdg⟩ := kahnStep_spec (revAdj deps x) hSnd queue deg
  have hsplit := inv.nodup
  rw [List.nodup_append] at hsplit
  have hx_not_order : x ∉ order :=
    fun hxo => hsplit.2.2 hxo (List.mem_cons_self _ _)
  have hlookup_x : ∀ t ∈ lookup deps x, t ∈ order :=
    inv.queueDone x (List.mem_cons_self _ _)
  set newS := (revAdj deps x).filter (fun s => decide (deg s = 1)) with hnewS
  have hnewS_mem : ∀ s, s ∈ newS ↔ x ∈ lookup deps s ∧ deg s = 1 := by
    intro s
    rw [hnewS, List.mem_filter, mem_revAdj_iff hWF]
    simp
  have hseen_deg : ∀ s, s ∈ order ∨ s ∈ x :: queue → deg s = 0 := by
    intro s hs
    rw [inv.degEq s]
    rcases hs with hs | hs
    · have h0 : remaining deps order s = 0 :=
        remaining_eq_zero_iff.2 (fun t ht => (inv.topo s hs t ht).1)
      rw [h0]
      rfl
    · have h0 : remaining deps order s = 0 :=
        remaining_eq_zero_iff.2 (inv.queueDone s hs)
      rw [h0]
      rfl
  have hnewS_fresh : ∀ s ∈ newS, s ∉ order ∧ s ∉ x :: queue := by
    intro s hs
    obtain ⟨hxl, hdeg1⟩ := (hnewS_mem s).1 hs
    constructor
    · intro hso
      have := hseen_deg s (Or.inl hso)
      omega
    · intro hsq
      have := hseen_deg s (Or.inr hsq)
      omega
  have hnewS_nodes : ∀ s ∈ newS, s ∈ allNodesList deps := by
    intro s hs
    obtain ⟨hxl, _⟩ := (hnewS_mem s).1 hs
    exact mem_allNodesList_of_key (key_of_lookup_ne_nil (List.ne_nil_of_mem hxl))
  refine ⟨?_, ?_, ?_, ?_, ?_, ?_⟩
  · -- nodup
    rw [hq, ← List.append_assoc, ← List.append_cons, List.nodup_append]
    refine ⟨inv.nodup, hSnd.filter _, ?_⟩
    intro a ha hanew
    obtain ⟨h1, h2⟩ := hnewS_fresh a hanew
    rcases List.mem_append.1 ha with ha | ha
    · exact h1 ha
    · exact h2 ha
  · -- mem
    intro n hn
    rw [hq, ← List.append_assoc, ← List.append_cons] at hn
    rcases List.mem_append.1 hn with hn | hn
    · exact inv.mem n hn
    · exact hnewS_nodes n hn
  · -- degEq
    intro n
    rw [hdg n]
    by_cases hn : n ∈ revAdj deps x
    · rw [if_pos hn]
      have hxl := (mem_revAdj_iff hWF).1 hn
      have hsucc := remaining_append_succ hWF hxl hx_not_order
      rw [inv.degEq n]
      omega
    · rw [if_neg hn]
      have hxl : x ∉ lookup deps n := fun h => hn ((mem_revAdj_iff hWF).2 h)
      rw [inv.degEq n, remaining_append_of_not_mem_lookup hxl]
  · -- queueDone
    intro n hn t ht
    rw [hq] at hn
    rcases List.mem_append.1 hn with hn | hn
    · exact List.mem_append_left _
        (inv.queueDone n (List.mem_cons_of_mem _ hn) t ht)
    · obtain ⟨hxl, hdeg1⟩ := (hnewS_mem n).1 hn
      have hsucc := remaining_append_succ hWF hxl hx_not_order
      have hrem1 : remaining deps order n = 1 := by
        have := inv.degEq n
        omega
      have h0 : remaining deps (order ++ [x]) n = 0 := by omega
      exact remaining_eq_zero_iff.1 h0 t ht
  · -- unseen
    intro n hnmem hno' hnq'
    rw [hq] at hnq'
    have hnx : n ≠ x := by
      intro hh
      exact hno' (hh ▸ List.mem_append_right _ (List.mem_singleton.2 rfl))
    have hno : n ∉ order := fun hh => hno' (List.mem_append_left _ hh)
    have hnqueue : n ∉ queue := fun hh => hnq' (List.mem_append_left _ hh)
    have hnnewS : n ∉ newS := fun hh => hnq' (List.mem_append_right _ hh)
    obtain ⟨t, ht, hto⟩ := inv.unseen n hnmem hno
      (by simp [hnx, hnqueue])
    by_cases htx : t = x
    · rw [htx] at ht
      have hpos := remaining_pos ht hx_not_order
      have hne1 : remaining deps order n ≠ 1 := by
        intro h1
        apply hnnewS
        rw [hnewS_mem]
        refine ⟨ht, ?_⟩
        rw [inv.degEq n, h1]
        rfl
      have hsucc := remaining_append_succ hWF ht hx_not_order
      have hpos' : 0 < remaining deps (order ++ [x]) n := by omega
      rw [remaining] at hpos'
      obtain ⟨t', ht'⟩ := List.exists_mem_of_length_pos hpos'
      rw [List.mem_filter] at ht'
      exact ⟨t', ht'.1, by simpa using ht'.2⟩
    · exact ⟨t, ht, by simp [List.mem_append, hto, htx]⟩
  · -- topo
    intro s hs t htl
    rcases List.mem_append.1 hs with hs | hs
    · obtain ⟨hto, hidx⟩ := inv.topo s hs t htl
      refine ⟨List.mem_append_left _ hto, ?_⟩
      rw [List.indexOf_append_of_mem hto, List.indexOf_append_of_mem hs]
      exact hidx
    · rw [List.mem_singleton] at hs
      subst hs
      have hto := hlookup_x t htl
      refine ⟨List.mem_append_left _ hto, ?_⟩
      rw [List.indexOf_append_of_mem hto,
        indexOf_append_self_of_not_mem hx_not_order]
      exact List.indexOf_lt_length.2 hto

/-- Running the Kahn while loop with enough fuel drains the queue and
yields a final state satisfying the invariant with an empty queue. -/
theorem kahnLoop_spec {deps : DepMap} (hWF : DictWF deps) :
    ∀ (fuel : Nat) (queue order : List String) (deg : String → Int),
      KahnInv deps queue order deg →
      (allNodesList deps).length < fuel + order.length →
      ∃ deg', KahnInv deps [] (kahnLoop deps fuel queue order deg) deg' := by
  intro fuel
  induction fuel with
  | zero =>
      intro queue order deg inv hlen
      exfalso
      have hnodup : order.Nodup := (List.nodup_append.1 inv.nodup).1
      have hsub : order ⊆ allNodesList deps :=
        fun n hn => inv.mem n (List.mem_append_left _ hn)
      have := nodup_subset_length_le hnodup hsub
      omega
  | succ fuel ih =>
      intro queue order deg inv hlen
      match queue with
      | [] =>
          rw [kahnLoop]
          exact ⟨deg, inv⟩
      | x :: queue' =>
          rw [kahnLoop]
          refine ih _ _ _ (kahnInv_step hWF inv) ?_
          rw [List.length_append]
          simp only [List.length_singleton]
          omega

/-- The initial Kahn state satisfies the invariant. -/
theorem kahnInv_init {deps : DepMap} (hWF : DictWF deps) :
    KahnInv deps
      ((allNodesList deps).filter
        (fun n => decide (((lookup deps n).length : Int) = 0)))
      [] (fun n => ((lookup deps n).length : Int)) := by
  refine ⟨?_, ?_, ?_, ?_, ?_, ?_⟩
  · rw [List.nil_append]
    exact (allNodesList_nodup deps).filter _
  · intro n hn
    rw [List.nil_append] at hn
    exact List.mem_of_mem_filter hn
  · intro n
    rw [remaining_nil_order]
  · intro n hn t ht
    rw [List.mem_filter] at hn
    have hnil : lookup deps n = [] := by
      have h2 := hn.2
      simpa using h2
    rw [hnil] at ht
    simp at ht
  · intro n hn hno hnq
    rw [List.mem_filter] at hnq
    have hne : ¬ ((lookup deps n).length : Int) = 0 := by
      intro h0
      exact hnq ⟨hn, by simpa using h0⟩
    have : lookup deps n ≠ [] := by
      intro hnil
      rw [hnil] at hne
      exact hne rfl
    obtain ⟨t, ht⟩ := List.exists_mem_of_ne_nil _ this
    exact ⟨t, ht, by simp⟩
  · intro s hs
    simp at hs

/-- The startup order satisfies the final Kahn invariant. -/
theorem startup_order_final_inv {deps : DepMap} (hWF : DictWF deps) :
    ∃ deg', KahnInv deps [] (_calculate_startup_order deps) deg' := by
  rw [_calculate_startup_order]
  exact kahnLoop_spec hWF _ _ _ _ (kahnInv_init hWF) (by omega)

/-- The startup order is a duplicate-free list of graph nodes. -/
theorem startup_order_nodup {deps : DepMap} (hWF : DictWF deps) :
    (_calculate_startup_order deps).Nodup := by
  obtain ⟨deg', inv⟩ := startup_order_final_inv hWF
  simpa using inv.nodup

/-- Every startup-order entry is a graph node. -/
theorem startup_order_subset_nodes {deps : DepMap} (hWF : DictWF deps) :
    ∀ n ∈ _calculate_startup_order deps, n ∈ allNodesList deps := by
  obtain ⟨deg', inv⟩ := startup_order_final_inv hWF
  intro n hn
  exact inv.mem n (by simpa using hn)

/-- The startup order is topologically certified: every emitted node's
dependencies are emitted earlier. -/
theorem startup_order_topo {deps : DepMap} (hWF : DictWF deps) :
    TopoList deps (_calculate_startup_order deps) := by
  obtain ⟨deg', inv⟩ := startup_order_final_inv hWF
  exact inv.topo

/-- Every graph node missing from the startup order has a dependency
missing from the startup order. -/
theorem startup_order_unseen {deps : DepMap} (hWF : DictWF deps) :
    ∀ n ∈ allNodesList deps, n ∉ _calculate_startup_order deps →
      ∃ t ∈ lookup deps n, t ∉ _calculate_startup_order deps := by
  obtain ⟨deg', inv⟩ := startup_order_final_inv hWF
  intro n hn hno
  exact inv.unseen n hn hno (by simp)

/-- On an acyclic graph every node is emitted. -/
theorem startup_order_complete {deps : DepMap} (hWF : DictWF deps)
    (hacyc : Acyclic deps) :
    ∀ n ∈ allNodesList deps, n ∈ _calculate_startup_order deps := by
  by_contra hcon
  push_neg at hcon
  obtain ⟨n₀, hn₀, hn₀o⟩ := hcon
  set S := (allNodesList deps).filter
    (fun n => decide (n ∉ _calculate_startup_order deps)) with hS
  have hSmem : ∀ n, n ∈ S ↔ n ∈ allNodesList deps ∧
      n ∉ _calculate_startup_order deps := by
    intro n
    rw [hS, List.mem_filter]
    simp
  have hne : S ≠ [] :=
    List.ne_nil_of_mem ((hSmem n₀).2 ⟨hn₀, hn₀o⟩)
  have hclosed : ∀ n ∈ S, ∃ t ∈ lookup deps n, t ∈ S := by
    intro n hn
    obtain ⟨hn1, hn2⟩ := (hSmem n).1 hn
    obtain ⟨t, ht, hto⟩ := startup_order_unseen hWF n hn1 hn2
    exact ⟨t, ht, (hSmem t).2 ⟨mem_allNodesList_of_target ht, hto⟩⟩
  obtain ⟨c, hc⟩ := exists_cycle_of_closed hne hclosed
  exact hacyc c hc

/-- A cycle node never enters the startup order. -/
theorem cycle_node_not_in_startup_order {deps : DepMap}
    (hWF : DictWF deps) {c : List String} (hc : IsCycle deps c) :
    ∀ x ∈ c, x ∉ _calculate_startup_order deps :=
  cycle_not_mem_topoList (startup_order_topo hWF) hc

theorem nodup_ssubset_length_lt {l l' : List String} (hl : l.Nodup)
    (hsub : l ⊆ l') {x : String} (hx : x ∈ l') (hxl : x ∉ l) :
    l.length < l'.length := by
  have h1 : l.length ≤ (l'.toFinset.erase x).card := by
    rw [← List.toFinset_card_of_nodup hl]
    refine Finset.card_le_card ?_
    intro a ha
    rw [List.mem_toFinset] at ha
    rw [Finset.mem_erase, List.mem_toFinset]
    exact ⟨fun hh => hxl (hh ▸ ha), hsub ha⟩
  have h2 : (l'.toFinset.erase x).card < l'.toFinset.card :=
    Finset.card_erase_lt_of_mem (List.mem_toFinset.2 hx)
  have h3 : l'.toFinset.card ≤ l'.length := List.toFinset_card_le l'
  omega

/-- A topologically certified list covering all keys certifies
acyclicity. -/
theorem acyclic_of_covering_topolist (deps : DepMap) (f : List String)
    (htopo : TopoList deps f) (hkeys : ∀ n ∈ deps.map Prod.fst, n ∈ f) :
    Acyclic deps := by
  intro c hc
  match c with
  | [] => exact hc
  | a :: l =>
      obtain ⟨z, hz, he⟩ :=
        exists_edge_of_mem_cycle hc a (List.mem_cons_self _ _)
      have haf : a ∈ f :=
        hkeys a (key_of_lookup_ne_nil (List.ne_nil_of_mem he))
      exact cycle_not_mem_topoList htopo hc a (List.mem_cons_self _ _) haf

/-! ### Claim C1: Kahn on acyclic graphs -/

/-- C1: For every acyclic dependency graph, the startup order returned
by `_calculate_startup_order` contains exactly as many entries as the
graph has nodes, and for every edge `(source, target)` the target (the
dependency) appears at an earlier index in the order than the source
(the dependent). -/
theorem startup_order_acyclic_complete {deps : DepMap} (hWF : DictWF deps)
    (hacyc : Acyclic deps) :
    (_calculate_startup_order deps).length = (allNodesList deps).length ∧
    ∀ s t, t ∈ lookup deps s →
      t ∈ _calculate_startup_order deps ∧
      s ∈ _calculate_startup_order deps ∧
      (_calculate_startup_order deps).indexOf t
        < (_calculate_startup_order deps).indexOf s := by
  have hcomplete := startup_order_complete hWF hacyc
  have hnodup := startup_order_nodup hWF
  have hsub := startup_order_subset_nodes hWF
  constructor
  · have h1 := nodup_subset_length_le hnodup hsub
    have h2 := nodup_subset_length_le (allNodesList_nodup deps) hcomplete
    omega
  · intro s t ht
    have hskey : s ∈ allNodesList deps :=
      mem_allNodesList_of_key (key_of_lookup_ne_nil (List.ne_nil_of_mem ht))
    have hso : s ∈ _calculate_startup_order deps := hcomplete s hskey
    obtain ⟨hto, hidx⟩ := startup_order_topo hWF s hso t ht
    exact ⟨hto, hso, hidx⟩

/-- Witness for C1 on the concrete acyclic graph `A → B`. -/
theorem startup_order_acyclic_complete_witness :
    DictWF [("A", ["B"])] ∧ Acyclic [("A", ["B"])] ∧
    ((_calculate_startup_order [("A", ["B"])]).length
        = (allNodesList [("A", ["B"])]).length ∧
     ∀ s t, t ∈ lookup [("A", ["B"])] s →
       t ∈ _calculate_startup_order [("A", ["B"])] ∧
       s ∈ _calculate_startup_order [("A", ["B"])] ∧
       (_calculate_startup_order [("A", ["B"])]).indexOf t
         < (_calculate_startup_order [("A", ["B"])]).indexOf s) := by
  have hacyc : Acyclic [("A", ["B"])] :=
    acyclic_of_covering_topolist _ ["B", "A"] (by decide) (by decide)
  exact ⟨by decide, hacyc, startup_order_acyclic_complete (by decide) hacyc⟩

/-! ### Claim C10: startup order entries -/

/-- C10: For every input dependency map (a dictionary of sets, i.e.
distinct keys with duplicate-free dependency sets), the startup order
returned by `_calculate_startup_order` contains no duplicate entries,
and every entry is a node of the graph (an element of the union of all
sources and targets). -/
theorem startup_order_nodup_and_nodes {deps : DepMap} (hWF : DictWF deps) :
    (_calculate_startup_order deps).Nodup ∧
    ∀ n ∈ _calculate_startup_order deps, n ∈ allNodesList deps :=
  ⟨startup_order_nodup hWF, startup_order_subset_nodes hWF⟩

/-- Witness for C10 on a concrete graph with a cycle and a tail. -/
theorem startup_order_nodup_and_nodes_witness :
    DictWF [("X", ["Y"]), ("Y", ["X"]), ("A", ["B"])] ∧
    ((_calculate_startup_order [("X", ["Y"]), ("Y", ["X"]), ("A", ["B"])]).Nodup ∧
     ∀ n ∈ _calculate_startup_order [("X", ["Y"]), ("Y", ["X"]), ("A", ["B"])],
       n ∈ allNodesList [("X", ["Y"]), ("Y", ["X"]), ("A", ["B"])]) :=
  ⟨by decide, startup_order_nodup_and_nodes (by decide)⟩

/-! ### Cycle detector: unfolding equations and ghost projection -/

theorem foldSt_nil {σ : Type} (f : String → σ → σ) (st : σ) :
    foldSt f [] st = st := rfl

theorem foldSt_cons {σ : Type} (f : String → σ → σ) (nb : String)
    (rest : List String) (st : σ) :
    foldSt f (nb :: rest) st = foldSt f rest (f nb st) := rfl

theorem dfs_stack_hit {deps : DepMap} {fuel : Nat} {node : String}
    {visited path : List String} {cycles : List (List String)}
    (h1 : node ∈ path) :
    dfs deps fuel node visited path cycles
      = (visited, cycles ++ [path.drop (path.indexOf node) ++ [node]]) := by
  rw [dfs.eq_def]
  dsimp only
  rw [if_pos h1]

theorem dfs_visited_hit {deps : DepMap} {fuel : Nat} {node : String}
    {visited path : List String} {cycles : List (List String)}
    (h1 : node ∉ path) (h2 : node ∈ visited) :
    dfs deps fuel node visited path cycles = (visited, cycles) := by
  rw [dfs.eq_def]
  dsimp only
  rw [if_neg h1, if_pos h2]

theorem dfs_zero {deps : DepMap} {node : String}
    {visited path : List String} {cycles : List (List String)}
    (h1 : node ∉ path) (h2 : node ∉ visited) :
    dfs deps 0 node visited path cycles = (visited, cycles) := by
  rw [dfs.eq_def]
  dsimp only
  rw [if_neg h1, if_neg h2]

theorem dfs_descend {deps : DepMap} {fuel : Nat} {node : String}
    {visited path : List String} {cycles : List (List String)}
    (h1 : node ∉ path) (h2 : node ∉ visited) :
    dfs deps (fuel + 1) node visited path cycles
      = foldSt (fun nb st => dfs deps fuel nb st.1 (path ++ [node]) st.2)
          (lookup deps node) (visited ++ [node], cycles) := by
  rw [dfs.eq_def]
  dsimp only
  rw [if_neg h1, if_neg h2]

theorem dfsG_stack_hit {deps : DepMap} {fuel : Nat} {node : String}
    {visited finished path : List String} {cycles : List (List String)}
    (h1 : node ∈ path) :
    dfsG deps fuel node visited finished path cycles
      = (visited, finished,
          cycles ++ [path.drop (path.indexOf node) ++ [node]]) := by
  rw [dfsG.eq_def]
  dsimp only
  rw [if_pos h1]

theorem dfsG_visited_hit {deps : DepMap} {fuel : Nat} {node : String}
    {visited finished path : List String} {cycles : List (List String)}
    (h1 : node ∉ path) (h2 : node ∈ visited) :
    dfsG deps fuel node visited finished path cycles
      = (visited, finished, cycles) := by
  rw [dfsG.eq_def]
  dsimp only
  rw [if_neg h1, if_pos h2]

theorem dfsG_zero {deps : DepMap} {node : String}
    {visited finished path : List String} {cycles : List (List String)}
    (h1 : node ∉ path) (h2 : node ∉ visited) :
    dfsG deps 0 node visited finished path cycles
      = (visited, finished, cycles) := by
  rw [dfsG.eq_def]
  dsimp only
  rw [if_neg h1, if_neg h2]

theorem dfsG_descend {deps : DepMap} {fuel : Nat} {node : String}
    {visited finished path : List String} {cycles : List (List String)}
    (h1 : node ∉ path) (h2 : node ∉ visited) :
    dfsG deps (fuel + 1) node visited finished path cycles
      = (let r := foldSt
          (fun nb st => dfsG deps fuel nb st.1 st.2.1 (path ++ [node]) st.2.2)
          (lookup deps node) (visited ++ [node], finished, cycles)
         (r.1, r.2.1 ++ [node], r.2.2)) := by
  rw [dfsG.eq_def]
  dsimp only
  rw [if_neg h1, if_neg h2]

/-- The ghost-instrumented DFS computes the same visited set and cycle
list as the plain DFS, for any initial finished list. -/
theorem dfs_eq_dfsG (deps : DepMap) :
    ∀ (fuel : Nat) (node : String)
      (visited finished path : List String) (cycles : List (List String)),
      dfs deps fuel node visited path cycles
        = ((dfsG deps fuel node visited finished path cycles).1,
           (dfsG deps fuel node visited finished path cycles).2.2) := by
  intro fuel
  induction fuel with
  | zero =>
      intro node visited finished path cycles
      by_cases h1 : node ∈ path
      · rw [dfs_stack_hit h1, dfsG_stack_hit h1]
      · by_cases h2 : node ∈ visited
        · rw [dfs_visited_hit h1 h2, dfsG_visited_hit h1 h2]
        · rw [dfs_zero h1 h2, dfsG_zero h1 h2]
  | succ fuel ih =>
      intro node visited finished path cycles
      by_cases h1 : node ∈ path
      · rw [dfs_stack_hit h1, dfsG_stack_hit h1]
      · by_cases h2 : node ∈ visited
        · rw [dfs_visited_hit h1 h2, dfsG_visited_hit h1 h2]
        · rw [dfs_descend h1 h2, dfsG_descend h1 h2]
          have key : ∀ (l : List String) (v f : List String)
              (c : List (List String)) (p : List String),
              foldSt (fun nb st => dfs deps fuel nb st.1 p st.2) l (v, c)
                = ((foldSt (fun nb st =>
                      dfsG deps fuel nb st.1 st.2.1 p st.2.2) l (v, f, c)).1,
                   (foldSt (fun nb st =>
                      dfsG deps fuel nb st.1 st.2.1 p st.2.2) l (v, f, c)).2.2) := by
            intro l
            induction l with
            | nil => intro v f c p; rfl
            | cons nb rest ihl =>
                intro v f c p
                rw [foldSt_cons, foldSt_cons]
                show foldSt (fun nb st => dfs deps fuel nb st.1 p st.2) rest
                  (dfs deps fuel nb v p c) = _
                rw [ih nb v f p c]
                exact ihl _ _ _ p
          exact key (lookup deps node) (visited ++ [node]) finished cycles
            (path ++ [node])

theorem nodup_append_single {l : List String} {x : String} (h : l.Nodup)
    (hx : x ∉ l) : (l ++ [x]).Nodup := by
  rw [List.nodup_append]
  refine ⟨h, List.nodup_singleton _, ?_⟩
  intro a ha hb
  rw [List.mem_singleton] at hb
  exact hx (hb ▸ ha)

/-- The DFS only appends to the cycle list. -/
theorem dfsG_cycles_extend (deps : DepMap) :
    ∀ (fuel : Nat) (node : String) (visited finished path : List String)
      (cycles : List (List String)),
      cycles <+: (dfsG deps fuel node visited finished path cycles).2.2 := by
  intro fuel
  induction fuel with
  | zero =>
      intro node visited finished path cycles
      by_cases h1 : node ∈ path
      · rw [dfsG_stack_hit h1]
        exact List.prefix_append _ _
      · by_cases h2 : node ∈ visited
        · rw [dfsG_visited_hit h1 h2]
        · rw [dfsG_zero h1 h2]
  | succ fuel ih =>
      intro node visited finished path cycles
      by_cases h1 : node ∈ path
      · rw [dfsG_stack_hit h1]
        exact List.prefix_append _ _
      · by_cases h2 : node ∈ visited
        · rw [dfsG_visited_hit h1 h2]
        · rw [dfsG_descend h1 h2]
          show cycles <+:
            (foldSt (fun nb st =>
              dfsG deps fuel nb st.1 st.2.1 (path ++ [node]) st.2.2)
              (lookup deps node) (visited ++ [node], finished, cycles)).2.2
          have key : ∀ (l : List String)
              (st : List String × List String × List (List String)),
              st.2.2 <+: (foldSt (fun nb st =>
                dfsG deps fuel nb st.1 st.2.1 (path ++ [node]) st.2.2)
                l st).2.2 := by
            intro l
            induction l with
            | nil => intro st; exact List.prefix_rfl
            | cons nb rest ihl =>
                intro st
                rw [foldSt_cons]
                exact (ih nb st.1 st.2.1 (path ++ [node]) st.2.2).trans (ihl _)
          exact key (lookup deps node) (visited ++ [node], finished, cycles)

/-- The outer detection loop only appends to the cycle list. -/
theorem detectLoopG_cycles_extend (deps : DepMap) (fuel : Nat) :
    ∀ (ps : List (String × List String))
      (st : List String × List String × List (List String)),
      st.2.2 <+: (detectLoopG deps fuel ps st).2.2 := by
  intro ps
  induction ps with
  | nil => intro st; exact List.prefix_rfl
  | cons p ps ih =>
      intro st
      rw [detectLoopG]
      by_cases hp : p.1 ∈ st.1
      · rw [if_pos hp]
        exact ih st
      · rw [if_neg hp]
        exact (dfsG_cycles_extend deps fuel p.1 st.1 st.2.1 [] st.2.2).trans
          (ih _)

/-- Main specification of the ghost DFS: when a call adds no cycle, it
preserves the DFS invariant across the caller's path, only extends the
visited and finished lists, finishes only freshly visited nodes, and
leaves the argument node finished and visited. -/
theorem dfsG_spec {deps : DepMap} :
    ∀ (fuel : Nat) (node : String) (visited finished path : List String)
      (cycles : List (List String)),
      DfsInv deps visited finished path →
      node ∈ allNodesList deps →
      (allNodesList deps).length < fuel + visited.length →
      (dfsG deps fuel node visited finished path cycles).2.2 = cycles →
      DfsInv deps (dfsG deps fuel node visited finished path cycles).1
          (dfsG deps fuel node visited finished path cycles).2.1 path ∧
        visited <+: (dfsG deps fuel node visited finished path cycles).1 ∧
        finished <+: (dfsG deps fuel node visited finished path cycles).2.1 ∧
        (∀ y ∈ (dfsG deps fuel node visited finished path cycles).2.1,
          y ∈ finished ∨ y ∉ visited) ∧
        node ∈ (dfsG deps fuel node visited finished path cycles).2.1 ∧
        node ∈ (dfsG deps fuel node visited finished path cycles).1 := by
  intro fuel
  induction fuel with
  | zero =>
      intro node visited finished path cycles inv hnode hlen _
      exfalso
      have := nodup_subset_length_le inv.visNodup inv.visNodes
      omega
  | succ fuel ih =>
      intro node visited finished path cycles inv hnode hlen hnonew
      by_cases h1 : node ∈ path
      · exfalso
        rw [dfsG_stack_hit h1] at hnonew
        have hlencon := congrArg List.length hnonew
        simp at hlencon
      · by_cases h2 : node ∈ visited
        · rw [dfsG_visited_hit h1 h2] at hnonew ⊢
          have hfin : node ∈ finished := by
            rcases inv.visCover node h2 with h | h
            · exact h
            · exact absurd h h1
          exact ⟨inv, List.prefix_rfl, List.prefix_rfl,
            fun y hy => Or.inl hy, hfin, h2⟩
        · rw [dfsG_descend h1 h2] at hnonew ⊢
          set path' := path ++ [node] with hpath'
          set G := fun (nb : String)
              (st : List String × List String × List (List String)) =>
              dfsG deps fuel nb st.1 st.2.1 path' st.2.2 with hG
          have hvis'_nodup : (visited ++ [node]).Nodup :=
            nodup_append_single inv.visNodup h2
          have hinv' : DfsInv deps (visited ++ [node]) finished path' := by
            refine ⟨?_, ?_, ?_, inv.finNodup, hvis'_nodup, ?_, inv.topo⟩
            · intro a ha
              rcases List.mem_append.1 ha with ha | ha
              · exact List.mem_append_left _ (inv.pathVis ha)
              · exact List.mem_append_right _ ha
            · intro a ha
              rcases List.mem_append.1 ha with ha | ha
              · rcases inv.visCover a ha with h | h
                · exact Or.inl h
                · exact Or.inr (List.mem_append_left _ h)
              · exact Or.inr (List.mem_append_right _ ha)
            · intro a ha
              exact List.mem_append_left _ (inv.finVis ha)
            · intro a ha
              rcases List.mem_append.1 ha with ha | ha
              · exact inv.visNodes ha
              · rw [List.mem_singleton] at ha
                exact ha ▸ hnode
          have key : ∀ (l : List String), (∀ nb ∈ l, nb ∈ allNodesList deps) →
              ∀ (v f : List String) (c : List (List String)),
              DfsInv deps v f path' →
              (allNodesList deps).length < fuel + v.length →
              (foldSt G l (v, f, c)).2.2 = c →
              DfsInv deps (foldSt G l (v, f, c)).1
                  (foldSt G l (v, f, c)).2.1 path' ∧
                v <+: (foldSt G l (v, f, c)).1 ∧
                f <+: (foldSt G l (v, f, c)).2.1 ∧
                (∀ y ∈ (foldSt G l (v, f, c)).2.1, y ∈ f ∨ y ∉ v) ∧
                (∀ nb ∈ l, nb ∈ (foldSt G l (v, f, c)).2.1) := by
            intro l
            induction l with
            | nil =>
                intro _ v f c invv _ _
                rw [foldSt_nil]
                exact ⟨invv, List.prefix_rfl, List.prefix_rfl,
                  fun y hy => Or.inl hy, by simp⟩
            | cons nb rest ihl =>
                intro hmemnb v f c invv hlenv hnonewf
                rw [foldSt_cons] at hnonewf ⊢
                have hGnb : G nb (v, f, c) = dfsG deps fuel nb v f path' c := rfl
                rw [hGnb] at hnonewf ⊢
                set G1 := dfsG deps fuel nb v f path' c with hG1
                have hpre1 : c <+: G1.2.2 := by
                  rw [hG1]
                  exact dfsG_cycles_extend deps fuel nb v f path' c
                have key2 : ∀ (l' : List String)
                    (st : List String × List String × List (List String)),
                    st.2.2 <+: (foldSt G l' st).2.2 := by
                  intro l'
                  induction l' with
                  | nil => intro st; exact List.prefix_rfl
                  | cons a rest' ih2 =>
                      intro st
                      rw [foldSt_cons]
                      exact (dfsG_cycles_extend deps fuel a st.1 st.2.1
                        path' st.2.2).trans (ih2 _)
                have hpre2 : G1.2.2 <+: (foldSt G rest G1).2.2 := key2 rest G1
                have hG1c : G1.2.2 = c := by
                  refine (hpre1.eq_of_length ?_).symm
                  have l1 := hpre1.length_le
                  have l2 := hpre2.length_le
                  rw [hnonewf] at l2
                  omega
                obtain ⟨inv1, hv1, hf1, hnew1, hnbf1, hnbv1⟩ :=
                  ih nb v f path' c invv (hmemnb nb (List.mem_cons_self _ _))
                    hlenv hG1c
                rw [← hG1] at inv1 hv1 hf1 hnew1 hnbf1 hnbv1
                have hlenv1 : (allNodesList deps).length < fuel + G1.1.length := by
                  have := hv1.length_le
                  omega
                have hnonew_tail : (foldSt G rest (G1.1, G1.2.1, G1.2.2)).2.2
                    = G1.2.2 := by
                  show (foldSt G rest G1).2.2 = G1.2.2
                  rw [hG1c]
                  exact hnonewf
                obtain ⟨invr, hvr, hfr, hnewr, hallr⟩ :=
                  ihl (fun a ha => hmemnb a (List.mem_cons_of_mem _ ha))
                    G1.1 G1.2.1 G1.2.2 inv1 hlenv1 hnonew_tail
                refine ⟨invr, hv1.trans hvr, hf1.trans hfr, ?_, ?_⟩
                · intro y hy
                  rcases hnewr y hy with hy' | hy'
                  · exact hnew1 y hy'
                  · exact Or.inr (fun hyv => hy' (hv1.subset hyv))
                · intro a ha
                  rcases List.mem_cons.1 ha with ha | ha
                  · exact ha ▸ hfr.subset hnbf1
                  · exact hallr a ha
          have hlens : (allNodesList deps).length
              < fuel + (visited ++ [node]).length := by
            rw [List.length_append]
            simp only [List.length_singleton]
            omega
          have hnbnodes : ∀ nb ∈ lookup deps node, nb ∈ allNodesList deps :=
            fun nb hnb => mem_allNodesList_of_target hnb
          obtain ⟨invf, hvpre, hfpre, hnew, hallnb⟩ :=
            key (lookup deps node) hnbnodes (visited ++ [node]) finished
              cycles hinv' hlens hnonew
          set rf := foldSt G (lookup deps node)
            (visited ++ [node], finished, cycles) with hrf
          have hnode_vis' : node ∈ rf.1 :=
            hvpre.subset (List.mem_append_right _ (List.mem_singleton.2 rfl))
          have hnode_not_f : node ∉ rf.2.1 := by
            intro hmem
            rcases hnew node hmem with h | h
            · exact h2 (inv.finVis h)
            · exact h (List.mem_append_right _ (List.mem_singleton.2 rfl))
          have hfin_nodup : (rf.2.1 ++ [node]).Nodup :=
            nodup_append_single invf.finNodup hnode_not_f
          have htopo' : TopoList deps (rf.2.1 ++ [node]) := by
            intro s hs t htl
            rcases List.mem_append.1 hs with hs | hs
            · obtain ⟨htf, hidx⟩ := invf.topo s hs t htl
              refine ⟨List.mem_append_left _ htf, ?_⟩
              rw [List.indexOf_append_of_mem htf, List.indexOf_append_of_mem hs]
              exact hidx
            · rw [List.mem_singleton] at hs
              subst hs
              have htf : t ∈ rf.2.1 := hallnb t htl
              refine ⟨List.mem_append_left _ htf, ?_⟩
              rw [List.indexOf_append_of_mem htf,
                indexOf_append_self_of_not_mem hnode_not_f]
              exact List.indexOf_lt_length.2 htf
          refine ⟨⟨?_, ?_, ?_, hfin_nodup, invf.visNodup, invf.visNodes, htopo'⟩,
            ?_, ?_, ?_, ?_, ?_⟩
          · intro a ha
            exact hvpre.subset (List.mem_append_left _ (inv.pathVis ha))
          · intro a ha
            rcases invf.visCover a ha with h | h
            · exact Or.inl (List.mem_append_left _ h)
            · rcases List.mem_append.1 h with h | h
              · exact Or.inr h
              · exact Or.inl (List.mem_append_right _ h)
          · intro a ha
            rcases List.mem_append.1 ha with ha | ha
            · exact invf.finVis ha
            · rw [List.mem_singleton] at ha
              exact ha ▸ hnode_vis'
          · exact (List.prefix_append _ _).trans hvpre
          · exact hfpre.trans (List.prefix_append _ _)
          · intro y hy
            rcases List.mem_append.1 hy with hy | hy
            · rcases hnew y hy with h | h
              · exact Or.inl h
              · exact Or.inr (fun hyv => h (List.mem_append_left _ hyv))
            · rw [List.mem_singleton] at hy
              exact Or.inr (hy ▸ h2)
          · exact List.mem_append_right _ (List.mem_singleton.2 rfl)
          · exact hnode_vis'

/-- The plain detection loop computes the visited/cycles components of
the ghost loop. -/
theorem detectLoop_eq_G (deps : DepMap) (fuel : Nat) :
    ∀ (ps : List (String × List String)) (visited finished : List String)
      (cycles : List (List String)),
      detectLoop deps fuel ps (visited, cycles)
        = ((detectLoopG deps fuel ps (visited, finished, cycles)).1,
           (detectLoopG deps fuel ps (visited, finished, cycles)).2.2) := by
  intro ps
  induction ps with
  | nil => intro v f c; rfl
  | cons p ps ih =>
      intro v f c
      rw [detectLoop, detectLoopG]
      dsimp only
      by_cases hp : p.1 ∈ v
      · rw [if_pos hp, if_pos hp]
        exact ih v f c
      · rw [if_neg hp, if_neg hp, dfs_eq_dfsG deps fuel p.1 v f [] c]
        exact ih _ _ _

/-- The cycle list of `_detect_cycles` is the cycle component of the
ghost loop. -/
theorem detect_cycles_eq_G (deps : DepMap) :
    _detect_cycles deps
      = (detectLoopG deps ((allNodesList deps).length + 1) deps
          ([], [], [])).2.2 := by
  rw [_detect_cycles, detectLoop_eq_G deps _ deps [] [] []]

/-- Specification of the ghost detection loop when no cycle is
recorded. -/
theorem detectLoopG_spec {deps : DepMap} :
    ∀ (ps : List (String × List String)) (visited finished : List String)
      (cycles : List (List String)),
      (∀ p ∈ ps, p.1 ∈ allNodesList deps) →
      DfsInv deps visited finished [] →
      (detectLoopG deps ((allNodesList deps).length + 1) ps
          (visited, finished, cycles)).2.2 = cycles →
      DfsInv deps
          (detectLoopG deps ((allNodesList deps).length + 1) ps
            (visited, finished, cycles)).1
          (detectLoopG deps ((allNodesList deps).length + 1) ps
            (visited, finished, cycles)).2.1 [] ∧
        finished <+: (detectLoopG deps ((allNodesList deps).length + 1) ps
            (visited, finished, cycles)).2.1 ∧
        ∀ p ∈ ps, p.1 ∈ (detectLoopG deps ((allNodesList deps).length + 1) ps
            (visited, finished, cycles)).2.1 := by
  intro ps
  induction ps with
  | nil =>
      intro v f c _ inv _
      rw [detectLoopG]
      exact ⟨inv, List.prefix_rfl, by simp⟩
  | cons p ps ih =>
      intro v f c hkeys inv hnonew
      rw [detectLoopG] at hnonew ⊢
      dsimp only at hnonew ⊢
      by_cases hp : p.1 ∈ v
      · rw [if_pos hp] at hnonew ⊢
        obtain ⟨invr, hfr, hrest⟩ :=
          ih v f c (fun q hq => hkeys q (List.mem_cons_of_mem _ hq)) inv hnonew
        refine ⟨invr, hfr, ?_⟩
        intro q hq
        rcases List.mem_cons.1 hq with hq | hq
        · subst hq
          rcases inv.visCover q.1 hp with h | h
          · exact hfr.subset h
          · simp at h
        · exact hrest q hq
      · rw [if_neg hp] at hnonew ⊢
        set G1 := dfsG deps ((allNodesList deps).length + 1) p.1 v f [] c
          with hG1
        have hpre1 : c <+: G1.2.2 := by
          rw [hG1]
          exact dfsG_cycles_extend deps _ p.1 v f [] c
        have hpre2 : G1.2.2 <+:
            (detectLoopG deps ((allNodesList deps).length + 1) ps G1).2.2 :=
          detectLoopG_cycles_extend deps _ ps G1
        have hG1c : G1.2.2 = c := by
          refine (hpre1.eq_of_length ?_).symm
          have l1 := hpre1.length_le
          have l2 := hpre2.length_le
          rw [hnonew] at l2
          omega
        obtain ⟨inv1, hv1, hf1, _, hpf1, _⟩ :=
          dfsG_spec ((allNodesList deps).length + 1) p.1 v f [] c inv
            (hkeys p (List.mem_cons_self _ _)) (by omega) hG1c
        rw [← hG1] at inv1 hv1 hf1 hpf1
        have hnonew_tail :
            (detectLoopG deps ((allNodesList deps).length + 1) ps
              (G1.1, G1.2.1, G1.2.2)).2.2 = G1.2.2 := by
          show (detectLoopG deps ((allNodesList deps).length + 1) ps
            G1).2.2 = G1.2.2
          rw [hG1c]
          exact hnonew
        obtain ⟨invr, hfr, hrest⟩ :=
          ih G1.1 G1.2.1 G1.2.2
            (fun q hq => hkeys q (List.mem_cons_of_mem _ hq)) inv1 hnonew_tail
        refine ⟨invr, hf1.trans hfr, ?_⟩
        intro q hq
        rcases List.mem_cons.1 hq with hq | hq
        · subst hq
          exact hfr.subset hpf1
        · exact hrest q hq

/-- When `_detect_cycles` reports no cycle, there is a topologically
certified list covering every key of the dictionary. -/
theorem detect_cycles_empty_topo {deps : DepMap}
    (h : _detect_cycles deps = []) :
    ∃ f, TopoList deps f ∧ ∀ n ∈ deps.map Prod.fst, n ∈ f := by
  have hG : (detectLoopG deps ((allNodesList deps).length + 1) deps
      ([], [], [])).2.2 = [] := by
    rw [← detect_cycles_eq_G]
    exact h
  have hinv0 : DfsInv deps [] [] [] := by
    refine ⟨?_, ?_, ?_, List.nodup_nil, List.nodup_nil, ?_, ?_⟩
    · intro a ha; exact ha
    · intro a ha; simp at ha
    · intro a ha; exact ha
    · intro a ha; simp at ha
    · intro s hs; simp at hs
  have hkeys : ∀ p ∈ deps, p.1 ∈ allNodesList deps := by
    intro p hp
    exact mem_allNodesList_of_key (List.mem_map.2 ⟨p, hp, rfl⟩)
  obtain ⟨invf, _, hmem⟩ := detectLoopG_spec deps [] [] [] hkeys hinv0 hG
  refine ⟨_, invf.topo, ?_⟩
  intro n hn
  rw [List.mem_map] at hn
  obtain ⟨p, hp, rfl⟩ := hn
  exact hmem p hp

/-! ### Claim C4: cyclic graphs -/

/-- C4: For every dependency graph containing at least one cycle, the
Cycle Detector returns a nonempty list of cycles, and the Topological
Sequencer's returned startup order is strictly shorter than the number
of graph nodes. -/
theorem cycles_detected_and_order_short {deps : DepMap}
    (hWF : DictWF deps) {c : List String} (hc : IsCycle deps c) :
    _detect_cycles deps ≠ [] ∧
    (_calculate_startup_order deps).length < (allNodesList deps).length := by
  have hhead : ∀ (a : String) (l : List String), c = a :: l →
      a ∈ allNodesList deps := by
    intro a l hcl
    subst hcl
    obtain ⟨z, _, he⟩ :=
      exists_edge_of_mem_cycle hc a (List.mem_cons_self _ _)
    exact mem_allNodesList_of_key (key_of_lookup_ne_nil (List.ne_nil_of_mem he))
  constructor
  · intro hempty
    obtain ⟨f, htopo, hkeys⟩ := detect_cycles_empty_topo hempty
    match c, hc with
    | a :: l, hc =>
        obtain ⟨z, _, he⟩ :=
          exists_edge_of_mem_cycle hc a (List.mem_cons_self _ _)
        have haf : a ∈ f :=
          hkeys a (key_of_lookup_ne_nil (List.ne_nil_of_mem he))
        exact cycle_not_mem_topoList htopo hc a (List.mem_cons_self _ _) haf
  · match c, hc with
    | a :: l, hc =>
        have hnotin :=
          cycle_node_not_in_startup_order hWF hc a (List.mem_cons_self _ _)
        exact nodup_ssubset_length_lt (startup_order_nodup hWF)
          (startup_order_subset_nodes hWF) (hhead a l rfl) hnotin

/-- Witness for C4 on the concrete two-node cycle. -/
theorem cycles_detected_and_order_short_witness :
    DictWF [("X", ["Y"]), ("Y", ["X"])] ∧
    IsCycle [("X", ["Y"]), ("Y", ["X"])] ["X", "Y"] ∧
    (_detect_cycles [("X", ["Y"]), ("Y", ["X"])] ≠ [] ∧
     (_calculate_startup_order [("X", ["Y"]), ("Y", ["X"])]).length
       < (allNodesList [("X", ["Y"]), ("Y", ["X"])]).length) :=
  ⟨by decide, by decide,
    cycles_detected_and_order_short (by decide) (c := ["X", "Y"]) (by decide)⟩

/-! ### Cycle detector soundness: recorded cycles are closed walks -/

theorem drop_indexOf_cons {x : String} :
    ∀ {l : List String}, x ∈ l →
      l.drop (l.indexOf x) = x :: l.drop (l.indexOf x + 1) := by
  intro l
  induction l with
  | nil => intro h; simp at h
  | cons a l' ih =>
      intro hx
      by_cases hax : a = x
      · subst hax
        rw [List.indexOf_cons_self]
        simp
      · have hx' : x ∈ l' := by
          rcases List.mem_cons.1 hx with h | h
          · exact absurd h.symm hax
          · exact h
        rw [List.indexOf_cons_ne _ hax]
        simp only [List.drop_succ_cons]
        exact ih hx'

theorem indexOf_le_length {x : String} {l : List String} (hx : x ∈ l) :
    l.indexOf x ≤ l.length :=
  Nat.le_of_lt (List.indexOf_lt_length.2 hx)

/-- The cycle recorded on a stack hit is a closed walk. -/
theorem stack_hit_closed_walk {deps : DepMap} {path : List String}
    {node : String} (hchain : List.Chain' (Edge deps) (path ++ [node]))
    (hmem : node ∈ path) :
    ClosedWalk deps (path.drop (path.indexOf node) ++ [node]) := by
  set i := path.indexOf node with hi
  have hslice : path.drop i = node :: path.drop (i + 1) := drop_indexOf_cons hmem
  have hsuffix : List.Chain' (Edge deps) (path.drop i ++ [node]) := by
    have : path.drop i ++ [node] = (path ++ [node]).drop i := by
      rw [List.drop_append_of_le_length (hi ▸ indexOf_le_length hmem)]
    rw [this]
    exact hchain.suffix (List.drop_suffix i (path ++ [node]))
  refine ⟨node, path.drop (i + 1), ?_, ?_⟩
  · show List.Chain (Edge deps) node (path.drop (i + 1) ++ [node])
    have : List.Chain' (Edge deps) (node :: (path.drop (i + 1) ++ [node])) := by
      rw [← List.cons_append, ← hslice]
      exact hsuffix
    exact this
  · rw [hslice, List.cons_append]

/-- Every cycle recorded by the DFS is a closed walk of the graph. -/
theorem dfs_sound {deps : DepMap} :
    ∀ (fuel : Nat) (node : String) (visited path : List String)
      (cycles : List (List String)),
      List.Chain' (Edge deps) (path ++ [node]) →
      (∀ r ∈ cycles, ClosedWalk deps r) →
      ∀ r ∈ (dfs deps fuel node visited path cycles).2,
        ClosedWalk deps r := by
  intro fuel
  induction fuel with
  | zero =>
      intro node visited path cycles hchain hacc r hr
      by_cases h1 : node ∈ path
      · rw [dfs_stack_hit h1] at hr
        simp only at hr
        rcases List.mem_append.1 hr with hr | hr
        · exact hacc r hr
        · rw [List.mem_singleton] at hr
          exact hr ▸ stack_hit_closed_walk hchain h1
      · by_cases h2 : node ∈ visited
        · rw [dfs_visited_hit h1 h2] at hr
          exact hacc r hr
        · rw [dfs_zero h1 h2] at hr
          exact hacc r hr
  | succ fuel ih =>
      intro node visited path cycles hchain hacc r hr
      by_cases h1 : node ∈ path
      · rw [dfs_stack_hit h1] at hr
        simp only at hr
        rcases List.mem_append.1 hr with hr | hr
        · exact hacc r hr
        · rw [List.mem_singleton] at hr
          exact hr ▸ stack_hit_closed_walk hchain h1
      · by_cases h2 : node ∈ visited
        · rw [dfs_visited_hit h1 h2] at hr
          exact hacc r hr
        · rw [dfs_descend h1 h2] at hr
          have key : ∀ (l : List String), (∀ nb ∈ l, Edge deps node nb) →
              ∀ (v : List String) (c : List (List String)),
              (∀ r' ∈ c, ClosedWalk deps r') →
              ∀ r' ∈ (foldSt (fun nb st =>
                  dfs deps fuel nb st.1 (path ++ [node]) st.2) l (v, c)).2,
                ClosedWalk deps r' := by
            intro l
            induction l with
            | nil => intro _ v c hc r' hr'; exact hc r' hr'
            | cons nb rest ihl =>
                intro hedges v c hc r' hr'
                rw [foldSt_cons] at hr'
                have hch' : List.Chain' (Edge deps) ((path ++ [node]) ++ [nb]) := by
                  rw [List.chain'_append]
                  refine ⟨hchain, List.chain'_singleton _, ?_⟩
                  intro x hx y hy
                  rw [List.getLast?_concat] at hx
                  simp only [List.head?_cons, Option.mem_def, Option.some.injEq] at hx hy
                  rw [← hx, ← hy]
                  exact hedges nb (List.mem_cons_self _ _)
                have hstep : ∀ r'' ∈ (dfs deps fuel nb v (path ++ [node]) c).2,
                    ClosedWalk deps r'' :=
                  ih nb v (path ++ [node]) c hch' hc
                exact ihl (fun a ha => hedges a (List.mem_cons_of_mem _ ha))
                  _ _ hstep r' hr'
          exact key (lookup deps node) (fun nb hnb => hnb) (visited ++ [node])
            cycles hacc r hr

/-- Every cycle reported by `_detect_cycles` is a closed walk. -/
theorem detect_cycles_sound {deps : DepMap} :
    ∀ r ∈ _detect_cycles deps, ClosedWalk deps r := by
  rw [_detect_cycles]
  have key : ∀ (ps : List (String × List String)) (v : List String)
      (c : List (List String)),
      (∀ r ∈ c, ClosedWalk deps r) →
      ∀ r ∈ (detectLoop deps ((allNodesList deps).length + 1) ps (v, c)).2,
        ClosedWalk deps r := by
    intro ps
    induction ps with
    | nil => intro v c hc r hr; exact hc r hr
    | cons p ps ih =>
        intro v c hc r hr
        rw [detectLoop] at hr
        dsimp only at hr
        by_cases hp : p.1 ∈ v
        · rw [if_pos hp] at hr
          exact ih v c hc r hr
        · rw [if_neg hp] at hr
          have hstep : ∀ r' ∈ (dfs deps ((allNodesList deps).length + 1)
              p.1 v [] c).2, ClosedWalk deps r' :=
            dfs_sound _ p.1 v [] c (by simp) hc
          exact ih _ _ hstep r hr
  exact key deps [] [] (by simp)

/-- Nodes of a reported cycle never enter the startup order. -/
theorem reported_cycle_nodes_not_in_order {deps : DepMap}
    (hWF : DictWF deps) {r : List String} (hr : r ∈ _detect_cycles deps) :
    ∀ x ∈ r, x ∉ _calculate_startup_order deps := by
  obtain ⟨a, l, hcyc, rfl⟩ := detect_cycles_sound r hr
  intro x hx
  have hx' : x ∈ a :: l := by
    rcases List.mem_cons.1 hx with h | h
    · exact h ▸ List.mem_cons_self _ _
    · rcases List.mem_append.1 h with h | h
      · exact List.mem_cons_of_mem _ h
      · rw [List.mem_singleton] at h
        exact h ▸ List.mem_cons_self _ _
  exact cycle_node_not_in_startup_order hWF hcyc x hx'

/-- Reported cycles are nonempty. -/
theorem reported_cycle_ne_nil {deps : DepMap} {r : List String}
    (hr : r ∈ _detect_cycles deps) : r ≠ [] := by
  obtain ⟨a, l, _, rfl⟩ := detect_cycles_sound r hr
  simp

/-! ### Claim C9: empty input -/

/-- C9 counterexample: the claim says that on an empty graph with an
empty inventory the migration sequence contains no phases; the code's
fallback branch (`if not startup_order`) still creates one phase with
an empty container list. -/
theorem empty_pipeline_phase_counterexample :
    (pipeline [] [] []).phases ≠ [] := by decide

/-- C9 (amended): on the empty input every stage returns empty data and
no error, except that the migration sequence contains exactly one
fallback phase with no containers: the cycle list and startup order are
empty, the phase list is the single empty non-parallel "Phase 1", and
the parallel groups and sequential order are empty. -/
theorem empty_pipeline_outputs :
    _detect_cycles (buildDeps []) = [] ∧
    _calculate_startup_order (buildDeps []) = [] ∧
    (pipeline [] [] []).phases
      = [{ name := "Phase 1", containers := [], parallel := false,
           special := false, cycles := [], description := "" }] ∧
    (pipeline [] [] []).parallel_groups = [] ∧
    (pipeline [] [] []).sequential_order = [] ∧
    (pipeline [] [] []).total_phases = 1 := by decide

/-! ### Level assignment: supporting lemmas -/

theorem addToLevel_keys (levels : List (Nat × List String)) (lvl : Nat)
    (node : String) :
    (addToLevel levels lvl node).map Prod.fst =
      if lvl ∈ levels.map Prod.fst then levels.map Prod.fst
      else levels.map Prod.fst ++ [lvl] := by
  induction levels with
  | nil => simp [addToLevel]
  | cons p ps ih =>
      rw [addToLevel]
      by_cases hp : p.1 = lvl
      · rw [if_pos hp]
        have : lvl ∈ (p :: ps).map Prod.fst := by
          rw [List.map_cons]
          exact hp ▸ List.mem_cons_self _ _
        rw [if_pos this, List.map_cons, List.map_cons]
      · rw [if_neg hp, List.map_cons, List.map_cons, ih]
        by_cases hf : lvl ∈ ps.map Prod.fst
        · rw [if_pos hf, if_pos (List.mem_cons_of_mem _ hf)]
        · rw [if_neg hf, if_neg (by
            rw [List.mem_cons]
            rintro (h | h)
            · exact hp h.symm
            · exact hf h)]
          rw [List.cons_append]

theorem addToLevel_keys_nodup {levels : List (Nat × List String)}
    (h : (levels.map Prod.fst).Nodup) (lvl : Nat) (node : String) :
    ((addToLevel levels lvl node).map Prod.fst).Nodup := by
  rw [addToLevel_keys]
  by_cases hf : lvl ∈ levels.map Prod.fst
  · rwa [if_pos hf]
  · rw [if_neg hf, List.nodup_append]
    refine ⟨h, List.nodup_singleton _, ?_⟩
    intro a ha hb
    rw [List.mem_singleton] at hb
    exact hf (hb ▸ ha)

theorem addToLevel_flatten (levels : List (Nat × List String)) (lvl : Nat)
    (node : String) :
    (((addToLevel levels lvl node).map Prod.snd).flatten).Perm
      (node :: (levels.map Prod.snd).flatten) := by
  induction levels with
  | nil => simp [addToLevel]
  | cons p ps ih =>
      rw [addToLevel]
      by_cases hp : p.1 = lvl
      · rw [if_pos hp]
        rw [List.map_cons, List.flatten_cons, List.map_cons, List.flatten_cons]
        rw [List.append_assoc, List.singleton_append]
        exact List.perm_middle
      · rw [if_neg hp]
        rw [List.map_cons, List.flatten_cons, List.map_cons, List.flatten_cons]
        exact ((ih).append_left p.2).trans List.perm_middle

theorem levelAssigned_addToLevel_other {levels : List (Nat × List String)}
    {lvl : Nat} {node m : String} (hm : m ≠ node) :
    levelAssigned (addToLevel levels lvl node) m = levelAssigned levels m := by
  induction levels with
  | nil =>
      rw [addToLevel, levelAssigned, levelAssigned]
      rw [List.find?_cons_of_neg _ (by simp [hm])]
  | cons p ps ih =>
      rw [addToLevel]
      by_cases hp : p.1 = lvl
      · rw [if_pos hp, levelAssigned, levelAssigned]
        by_cases hmem : m ∈ p.2
        · rw [List.find?_cons_of_pos _ (by simp [List.mem_append, hmem]),
            List.find?_cons_of_pos _ (by simpa using hmem)]
          rfl
        · rw [List.find?_cons_of_neg _ (by simp [List.mem_append, hmem, hm]),
            List.find?_cons_of_neg _ (by simpa using hmem)]
      · rw [if_neg hp, levelAssigned, levelAssigned]
        by_cases hmem : m ∈ p.2
        · rw [List.find?_cons_of_pos _ (by simpa using hmem),
            List.find?_cons_of_pos _ (by simpa using hmem)]
        · rw [List.find?_cons_of_neg _ (by simpa using hmem),
            List.find?_cons_of_neg _ (by simpa using hmem)]
          exact ih

theorem levelAssigned_addToLevel_self {levels : List (Nat × List String)}
    {lvl : Nat} {node : String}
    (hnode : node ∉ (levels.map Prod.snd).flatten) :
    levelAssigned (addToLevel levels lvl node) node = some lvl := by
  induction levels with
  | nil =>
      rw [addToLevel, levelAssigned]
      rw [List.find?_cons_of_pos _ (by simp)]
      rfl
  | cons p ps ih =>
      have hnp : node ∉ p.2 := by
        intro h
        apply hnode
        rw [List.map_cons, List.flatten_cons]
        exact List.mem_append_left _ h
      have hnps : node ∉ (ps.map Prod.snd).flatten := by
        intro h
        apply hnode
        rw [List.map_cons, List.flatten_cons]
        exact List.mem_append_right _ h
      rw [addToLevel]
      by_cases hp : p.1 = lvl
      · rw [if_pos hp, levelAssigned]
        rw [List.find?_cons_of_pos _ (by simp)]
        simp [hp]
      · rw [if_neg hp, levelAssigned]
        rw [List.find?_cons_of_neg _ (by simpa using hnp)]
        exact ih hnps

theorem levelAssigned_mem_flatten {levels : List (Nat × List String)}
    {n : String} {lv : Nat} (h : levelAssigned levels n = some lv) :
    n ∈ (levels.map Prod.snd).flatten := by
  rw [levelAssigned] at h
  cases hfind : levels.find? (fun q => q.2.contains n) with
  | none => rw [hfind] at h; simp at h
  | some p =>
      have hp := List.mem_of_find?_eq_some hfind
      have hpred := List.find?_some hfind
      rw [List.mem_flatten]
      refine ⟨p.2, List.mem_map.2 ⟨p, hp, rfl⟩, ?_⟩
      simpa using hpred

theorem levelFold_le (levels : List (Nat × List String))
    (processed : List String) :
    ∀ (l : List String) (lv : Nat),
      lv ≤ foldSt (fun dep lv =>
        if dep ∈ processed then
          match levels.find? (fun p => p.2.contains dep) with
          | some p => max lv (p.1 + 1)
          | none => lv
        else lv) l lv := by
  intro l
  induction l with
  | nil => intro lv; rw [foldSt_nil]
  | cons dep rest ih =>
      intro lv
      rw [foldSt_cons]
      refine le_trans ?_ (ih _)
      by_cases hd : dep ∈ processed
      · rw [if_pos hd]
        cases hfind : levels.find? (fun p => p.2.contains dep) with
        | none => exact le_refl _
        | some p => exact le_max_left _ _
      · rw [if_neg hd]

theorem levelFold_ge (levels : List (Nat × List String))
    (processed : List String) :
    ∀ (l : List String) (lv : Nat) (b : String) (p : Nat × List String),
      b ∈ l → b ∈ processed →
      levels.find? (fun q => q.2.contains b) = some p →
      p.1 + 1 ≤ foldSt (fun dep lv =>
        if dep ∈ processed then
          match levels.find? (fun p => p.2.contains dep) with
          | some p => max lv (p.1 + 1)
          | none => lv
        else lv) l lv := by
  intro l
  induction l with
  | nil => intro lv b p hb; simp at hb
  | cons dep rest ih =>
      intro lv b p hb hbp hfind
      rw [foldSt_cons]
      rcases List.mem_cons.1 hb with heq | hb'
      · refine le_trans ?_ (levelFold_le levels processed rest _)
        rw [← heq, if_pos hbp, hfind]
        exact le_max_right _ _
      · exact ih _ b p hb' hbp hfind

theorem nodeLevel_ge {cdeps : DepMap} {levels : List (Nat × List String)}
    {processed : List String} {node b : String} {p : Nat × List String}
    (hb : b ∈ lookup cdeps node) (hbp : b ∈ processed)
    (hfind : levels.find? (fun q => q.2.contains b) = some p) :
    p.1 + 1 ≤ nodeLevel cdeps levels processed node := by
  rw [nodeLevel]
  exact levelFold_ge levels processed (lookup cdeps node) 0 b p hb hbp hfind

/-- Invariant of the dependency-level loop: level keys stay distinct,
the level lists partition the processed prefix, and levels respect the
container-dependency edges between already processed nodes. -/
theorem levelsLoop_spec (cdeps : DepMap) :
    ∀ (rest : List String) (levels : List (Nat × List String))
      (processed : List String),
      (processed ++ rest).Nodup →
      (levels.map Prod.fst).Nodup →
      ((levels.map Prod.snd).flatten).Perm processed →
      (∀ a b, b ∈ lookup cdeps a → a ∈ processed → b ∈ processed →
        processed.indexOf b < processed.indexOf a →
        ∀ la lb, levelAssigned levels a = some la →
          levelAssigned levels b = some lb → lb < la) →
      (((levelsLoop cdeps rest levels processed).map Prod.fst).Nodup ∧
       (((levelsLoop cdeps rest levels processed).map Prod.snd).flatten).Perm
         (processed ++ rest) ∧
       (∀ a b, b ∈ lookup cdeps a → a ∈ processed ++ rest →
         b ∈ processed ++ rest →
         (processed ++ rest).indexOf b < (processed ++ rest).indexOf a →
         ∀ la lb,
           levelAssigned (levelsLoop cdeps rest levels processed) a = some la →
           levelAssigned (levelsLoop cdeps rest levels processed) b = some lb →
           lb < la)) := by
  intro rest
  induction rest with
  | nil =>
      intro levels processed hnd hkeys hperm hJ3
      rw [levelsLoop]
      rw [List.append_nil]
      exact ⟨hkeys, hperm, hJ3⟩
  | cons node rest ih =>
      intro levels processed hnd hkeys hperm hJ3
      rw [levelsLoop]
      set lv := nodeLevel cdeps levels processed node with hlv
      set L2 := addToLevel levels lv node with hL2
      have hnode_proc : node ∉ processed := by
        have hsplit := hnd
        rw [List.nodup_append] at hsplit
        exact fun h => hsplit.2.2 h (List.mem_cons_self _ _)
      have hnode_flat : node ∉ (levels.map Prod.snd).flatten :=
        fun h => hnode_proc (hperm.mem_iff.1 h)
      have hassoc : (processed ++ [node]) ++ rest = processed ++ (node :: rest) := by
        rw [List.append_assoc, List.singleton_append]
      have hnd' : ((processed ++ [node]) ++ rest).Nodup := by
        rw [hassoc]
        exact hnd
      have hkeys2 : (L2.map Prod.fst).Nodup := by
        rw [hL2]
        exact addToLevel_keys_nodup hkeys lv node
      have hperm2 : ((L2.map Prod.snd).flatten).Perm (processed ++ [node]) := by
        rw [hL2]
        refine (addToLevel_flatten levels lv node).trans ?_
        refine (hperm.cons node).trans ?_
        exact (List.perm_append_singleton node processed).symm
      have hassigned_self : levelAssigned L2 node = some lv := by
        rw [hL2]
        exact levelAssigned_addToLevel_self hnode_flat
      have hassigned_other : ∀ m, m ≠ node →
          levelAssigned L2 m = levelAssigned levels m := by
        intro m hm
        rw [hL2]
        exact levelAssigned_addToLevel_other hm
      have hJ3' : ∀ a b, b ∈ lookup cdeps a → a ∈ processed ++ [node] →
          b ∈ processed ++ [node] →
          (processed ++ [node]).indexOf b < (processed ++ [node]).indexOf a →
          ∀ la lb, levelAssigned L2 a = some la →
            levelAssigned L2 b = some lb → lb < la := by
        intro a b hab ha hb hidx la lb hla hlb
        rcases List.mem_append.1 ha with ha' | ha'
        · have hb' : b ∈ processed := by
            rcases List.mem_append.1 hb with h | h
            · exact h
            · exfalso
              rw [List.mem_singleton] at h
              have e1 : (processed ++ [node]).indexOf b = processed.length := by
                rw [h]
                exact indexOf_append_self_of_not_mem hnode_proc
              have e2 : (processed ++ [node]).indexOf a = processed.indexOf a :=
                List.indexOf_append_of_mem ha'
              have e3 : processed.indexOf a < processed.length :=
                List.indexOf_lt_length.2 ha'
              omega
          have hane : a ≠ node := fun h => hnode_proc (h ▸ ha')
          have hbne : b ≠ node := fun h => hnode_proc (h ▸ hb')
          rw [hassigned_other a hane] at hla
          rw [hassigned_other b hbne] at hlb
          refine hJ3 a b hab ha' hb' ?_ la lb hla hlb
          rw [List.indexOf_append_of_mem ha', List.indexOf_append_of_mem hb'] at hidx
          exact hidx
        · rw [List.mem_singleton] at ha'
          have hla' : la = lv := by
            rw [ha', hassigned_self] at hla
            exact (Option.some_injective _ hla).symm
          have hb' : b ∈ processed := by
            rcases List.mem_append.1 hb with h | h
            · exact h
            · exfalso
              rw [List.mem_singleton] at h
              rw [ha', h] at hidx
              exact lt_irrefl _ hidx
          have hbne : b ≠ node := fun h => hnode_proc (h ▸ hb')
          rw [hassigned_other b hbne] at hlb
          rw [levelAssigned] at hlb
          cases hfind : levels.find? (fun q => q.2.contains b) with
          | none => rw [hfind] at hlb; simp at hlb
          | some p =>
              rw [hfind] at hlb
              have hp1 : p.1 = lb := by simpa using hlb
              rw [ha'] at hab
              have hbound := nodeLevel_ge hab hb' hfind
              rw [← hlv] at hbound
              omega
      obtain ⟨k1, k2, k3⟩ := ih L2 (processed ++ [node]) hnd' hkeys2 hperm2 hJ3'
      refine ⟨k1, ?_, ?_⟩
      · rw [← hassoc]
        exact k2
      · intro a b hab ha hb hidx la lb hla hlb
        rw [← hassoc] at ha hb hidx
        exact k3 a b hab ha hb hidx la lb hla hlb

/-- The pipeline's level dictionary: distinct level keys, level lists
partition the startup order, and levels respect container-dependency
edges. -/
theorem pipelineLevels_spec (cfacts ofacts : List (String × String)) :
    ((pipelineLevels cfacts ofacts).map Prod.fst).Nodup ∧
    (((pipelineLevels cfacts ofacts).map Prod.snd).flatten).Perm
      (_calculate_startup_order (buildDeps (cfacts ++ ofacts))) ∧
    (∀ a b, b ∈ lookup (buildDeps cfacts) a →
      a ∈ _calculate_startup_order (buildDeps (cfacts ++ ofacts)) →
      b ∈ _calculate_startup_order (buildDeps (cfacts ++ ofacts)) →
      (_calculate_startup_order (buildDeps (cfacts ++ ofacts))).indexOf b
        < (_calculate_startup_order (buildDeps (cfacts ++ ofacts))).indexOf a →
      ∀ la lb, levelAssigned (pipelineLevels cfacts ofacts) a = some la →
        levelAssigned (pipelineLevels cfacts ofacts) b = some lb →
        lb < la) := by
  rw [pipelineLevels]
  have h := levelsLoop_spec (buildDeps cfacts)
    (_calculate_startup_order (buildDeps (cfacts ++ ofacts))) [] []
    (by simpa using startup_order_nodup (buildDeps_WF (cfacts ++ ofacts)))
    (by simp)
    (by simp)
    (by
      intro a b _ _ _ _ la lb hla _
      rw [levelAssigned] at hla
      simp at hla)
  obtain ⟨k1, k2, k3⟩ := h
  rw [List.nil_append] at k2
  refine ⟨k1, k2, ?_⟩
  intro a b hab ha hb hidx la lb hla hlb
  exact k3 a b hab (by simpa using ha) (by simpa using hb)
    (by simpa using hidx) la lb hla hlb

/-! ### Claim C3: level ordering -/

/-- C3 counterexample: the claim says that for every dependency-graph
edge `(a, b)` with both endpoints level-assigned, `level(a) > level(b)`.
The level loop consults only the container-dependency dictionary, so on
the input where the edge `A → B` comes only from another fact kind
(`ofacts`), both `A` and `B` receive level 0. -/
theorem level_order_counterexample :
    ¬ (∀ a b, b ∈ lookup (buildDeps ([] ++ [("A", "B")])) a →
        ∀ la lb, levelAssigned (pipelineLevels [] [("A", "B")]) a = some la →
          levelAssigned (pipelineLevels [] [("A", "B")]) b = some lb →
          lb < la) := by
  intro h
  exact lt_irrefl 0 (h "A" "B" (by decide) 0 0 (by decide) (by decide))

/-- C3 (amended): for every container-dependency edge `(a, b)` (an edge
of the dictionary the Phase Planner actually consults) whose endpoints
are both level-assigned, the level of the dependent `a` is strictly
greater than the level of the dependency `b`. -/
theorem container_edge_level_increase (cfacts ofacts : List (String × String))
    {a b : String} {la lb : Nat}
    (hedge : b ∈ lookup (buildDeps cfacts) a)
    (hla : levelAssigned (pipelineLevels cfacts ofacts) a = some la)
    (hlb : levelAssigned (pipelineLevels cfacts ofacts) b = some lb) :
    lb < la := by
  obtain ⟨_, hperm, hJ3⟩ := pipelineLevels_spec cfacts ofacts
  have ha_mem : a ∈ _calculate_startup_order (buildDeps (cfacts ++ ofacts)) :=
    hperm.mem_iff.1 (levelAssigned_mem_flatten hla)
  have hedge' : b ∈ lookup (buildDeps (cfacts ++ ofacts)) a := by
    rw [mem_lookup_buildDeps] at hedge ⊢
    exact List.mem_append_left _ hedge
  obtain ⟨hb_mem, hidx⟩ :=
    startup_order_topo (buildDeps_WF (cfacts ++ ofacts)) a ha_mem b hedge'
  exact hJ3 a b hedge ha_mem hb_mem hidx la lb hla hlb

/-- Witness for the amended C3 on the container edge `A → B`. -/
theorem container_edge_level_increase_witness :
    "B" ∈ lookup (buildDeps [("A", "B")]) "A" ∧
    levelAssigned (pipelineLevels [("A", "B")] []) "A" = some 1 ∧
    levelAssigned (pipelineLevels [("A", "B")] []) "B" = some 0 ∧
    (0 : Nat) < 1 :=
  ⟨by decide, by decide, by decide,
    container_edge_level_increase [("A", "B")] []
      (by decide : "B" ∈ lookup (buildDeps [("A", "B")]) "A")
      (by decide : levelAssigned (pipelineLevels [("A", "B")] []) "A" = some 1)
      (by decide : levelAssigned (pipelineLevels [("A", "B")] []) "B" = some 0)⟩

/-! ### Phase lists: supporting lemmas for the partition claim -/

theorem perm_flatten {α : Type} {l₁ l₂ : List (List α)} (h : l₁.Perm l₂) :
    l₁.flatten.Perm l₂.flatten := by
  induction h with
  | nil => exact List.Perm.refl _
  | cons x _ ihp => simpa using ihp.append_left x
  | swap x y l =>
      simp only [List.flatten_cons]
      rw [← List.append_assoc, ← List.append_assoc]
      exact (List.perm_append_comm).append_right _
  | trans _ _ ih₁ ih₂ => exact ih₁.trans ih₂

theorem find?_key_self {L : List (Nat × List String)}
    (hkeys : (L.map Prod.fst).Nodup) {p : Nat × List String} (hp : p ∈ L) :
    L.find? (fun q => q.1 == p.1) = some p := by
  induction L with
  | nil => simp at hp
  | cons q qs ih =>
      rcases List.mem_cons.1 hp with hp' | hp'
      · subst hp'
        rw [List.find?_cons_of_pos _ (by simp)]
      · have hq : q.1 ≠ p.1 := by
          intro h
          have : p.1 ∈ qs.map Prod.fst := List.mem_map.2 ⟨p, hp', rfl⟩
          exact (List.nodup_cons.1 hkeys).1 (h ▸ this)
        rw [List.find?_cons_of_neg _ (by simp [hq])]
        exact ih (List.nodup_cons.1 hkeys).2 hp'

theorem levelContainers_of_mem {L : List (Nat × List String)}
    (hkeys : (L.map Prod.fst).Nodup) {p : Nat × List String} (hp : p ∈ L) :
    levelContainers L p.1 = p.2 := by
  rw [levelContainers, find?_key_self hkeys hp]
  rfl

theorem phasesOfLevels_containers {L : List (Nat × List String)} :
    (phasesOfLevels L).map Phase.containers
      = (sortedLevels L).map (levelContainers L) := by
  rw [phasesOfLevels, List.map_map]
  rfl

theorem phasesOfLevels_flatten_perm {L : List (Nat × List String)}
    (hkeys : (L.map Prod.fst).Nodup) :
    (((phasesOfLevels L).map Phase.containers).flatten).Perm
      ((L.map Prod.snd).flatten) := by
  rw [phasesOfLevels_containers]
  refine perm_flatten ?_
  have h1 : (sortedLevels L).Perm (L.map Prod.fst) := by
    rw [sortedLevels]
    exact List.perm_insertionSort _ _
  refine (h1.map (levelContainers L)).trans ?_
  rw [List.map_map]
  refine List.Perm.of_eq ?_
  refine List.map_congr_left ?_
  intro p hp
  exact levelContainers_of_mem hkeys hp

theorem phasesOfLevels_nonspecial {L : List (Nat × List String)} :
    ∀ ph ∈ phasesOfLevels L, ph.special = false := by
  intro ph hph
  rw [phasesOfLevels, List.mem_map] at hph
  obtain ⟨lvl, _, rfl⟩ := hph
  rfl

theorem insertCyclePhase_of_ne {cycles : List (List String)}
    {phases : List Phase} (hc : cycles ≠ [])
    (hcc : cycles.flatten.dedup ≠ []) :
    insertCyclePhase cycles phases
      = { name := "Phase 0 - Cycle Resolution"
          containers := cycles.flatten.dedup
          parallel := false
          special := true
          cycles := cycles
          description :=
            "Containers with circular dependencies - manual intervention required" }
        :: phases := by
  rw [insertCyclePhase, if_neg hc]
  dsimp only
  rw [if_neg hcc]

theorem insertCyclePhase_nil (phases : List Phase) :
    insertCyclePhase [] phases = phases := by
  rw [insertCyclePhase, if_pos rfl]

/-- A nonempty reported cycle list has a nonempty node union. -/
theorem detected_union_ne_nil {deps : DepMap}
    (hne : _detect_cycles deps ≠ []) :
    (_detect_cycles deps).flatten.dedup ≠ [] := by
  obtain ⟨r, hr⟩ := List.exists_mem_of_ne_nil _ hne
  have hrne : r ≠ [] := reported_cycle_ne_nil hr
  obtain ⟨x, hx⟩ := List.exists_mem_of_ne_nil _ hrne
  have : x ∈ (_detect_cycles deps).flatten.dedup := by
    rw [List.mem_dedup, List.mem_flatten]
    exact ⟨r, hr, hx⟩
  exact List.ne_nil_of_mem this

/-- Phases of the pipeline when the startup order is nonempty: the
cycle-phase insertion applied to the level-based phases. -/
theorem pipeline_phases_eq (cfacts ofacts : List (String × String))
    (inventory : List String)
    (hord : _calculate_startup_order (buildDeps (cfacts ++ ofacts)) ≠ []) :
    (pipeline cfacts ofacts inventory).phases
      = insertCyclePhase (_detect_cycles (buildDeps (cfacts ++ ofacts)))
          (phasesOfLevels (pipelineLevels cfacts ofacts)) := by
  simp only [pipeline, generate_migration_sequence]
  rw [if_neg hord]
  rfl

/-- Phases of the pipeline when the startup order is empty: the
cycle-phase insertion applied to the single inventory fallback phase. -/
theorem pipeline_phases_fallback (cfacts ofacts : List (String × String))
    (inventory : List String)
    (hord : _calculate_startup_order (buildDeps (cfacts ++ ofacts)) = []) :
    (pipeline cfacts ofacts inventory).phases
      = insertCyclePhase (_detect_cycles (buildDeps (cfacts ++ ofacts)))
          [{ name := "Phase 1", containers := inventory, parallel := false,
             special := false, cycles := [], description := "" }] := by
  simp only [pipeline, generate_migration_sequence]
  rw [if_pos hord]

/-- C5 counterexample: in the fallback branch (empty startup order but a
nonempty inventory), a node of a detected cycle appears both in the
special cycle phase and in the fallback phase, so the phases do not
partition the handled nodes: `"X"` lies in two distinct phases. -/
theorem phases_partition_counterexample :
    (pipeline [("X", "Y"), ("Y", "X")] [] ["X", "Y"]).phases.countP
      (fun p => p.containers.contains "X") = 2 := by
  decide

/-- C5 (amended): whenever cycles were detected, the phase list starts
with the dedicated cycle-resolution phase (index 0, non-parallel,
`special = true`, carrying the full cycle list and exactly the
deduplicated union of the cycle nodes), and every later phase is
non-special, so the cycle phase is never merged with the others; and
whenever the startup order is nonempty, the containers of all phases
taken together are a permutation of the cycle-node union followed by the
startup order, with no duplicates — each handled node lies in exactly
one phase.  (In the fallback branch for an empty startup order the
partition can fail, as the counterexample shows.) -/
theorem phases_cycle_phase_and_partition (cfacts ofacts : List (String × String))
    (inventory : List String) :
    (_detect_cycles (buildDeps (cfacts ++ ofacts)) ≠ [] →
      (pipeline cfacts ofacts inventory).phases.head? = some
        { name := "Phase 0 - Cycle Resolution"
          containers := (_detect_cycles (buildDeps (cfacts ++ ofacts))).flatten.dedup
          parallel := false
          special := true
          cycles := _detect_cycles (buildDeps (cfacts ++ ofacts))
          description :=
            "Containers with circular dependencies - manual intervention required" } ∧
      ∀ ph ∈ (pipeline cfacts ofacts inventory).phases.tail, ph.special = false) ∧
    (_calculate_startup_order (buildDeps (cfacts ++ ofacts)) ≠ [] →
      (((pipeline cfacts ofacts inventory).phases.map Phase.containers).flatten).Perm
        ((_detect_cycles (buildDeps (cfacts ++ ofacts))).flatten.dedup ++
          _calculate_startup_order (buildDeps (cfacts ++ ofacts))) ∧
      (((pipeline cfacts ofacts inventory).phases.map Phase.containers).flatten).Nodup) := by
  have hWF : DictWF (buildDeps (cfacts ++ ofacts)) := buildDeps_WF _
  obtain ⟨hkeys, hperm, -⟩ := pipelineLevels_spec cfacts ofacts
  have hPhPerm :
      ((((phasesOfLevels (pipelineLevels cfacts ofacts)).map
        Phase.containers).flatten)).Perm
        (_calculate_startup_order (buildDeps (cfacts ++ ofacts))) :=
    (phasesOfLevels_flatten_perm hkeys).trans hperm
  constructor
  · intro hcne
    by_cases hord : _calculate_startup_order (buildDeps (cfacts ++ ofacts)) = []
    · rw [pipeline_phases_fallback cfacts ofacts inventory hord,
        insertCyclePhase_of_ne hcne (detected_union_ne_nil hcne)]
      refine ⟨rfl, ?_⟩
      intro ph hph
      rw [List.tail_cons, List.mem_singleton] at hph
      subst hph
      rfl
    · rw [pipeline_phases_eq cfacts ofacts inventory hord,
        insertCyclePhase_of_ne hcne (detected_union_ne_nil hcne)]
      refine ⟨rfl, ?_⟩
      intro ph hph
      rw [List.tail_cons] at hph
      exact phasesOfLevels_nonspecial ph hph
  · intro hord
    rw [pipeline_phases_eq cfacts ofacts inventory hord]
    by_cases hc : _detect_cycles (buildDeps (cfacts ++ ofacts)) = []
    · rw [hc, insertCyclePhase_nil]
      simp only [List.flatten_nil, List.dedup_nil, List.nil_append]
      exact ⟨hPhPerm, (hPhPerm.nodup_iff).2 (startup_order_nodup hWF)⟩
    · rw [insertCyclePhase_of_ne hc (detected_union_ne_nil hc), List.map_cons,
        List.flatten_cons]
      have hfull :
          ((_detect_cycles (buildDeps (cfacts ++ ofacts))).flatten.dedup ++
            (((phasesOfLevels (pipelineLevels cfacts ofacts)).map
              Phase.containers).flatten)).Perm
          ((_detect_cycles (buildDeps (cfacts ++ ofacts))).flatten.dedup ++
            _calculate_startup_order (buildDeps (cfacts ++ ofacts))) :=
        hPhPerm.append_left _
      have hdisj :
          List.Disjoint
            (_detect_cycles (buildDeps (cfacts ++ ofacts))).flatten.dedup
            (_calculate_startup_order (buildDeps (cfacts ++ ofacts))) := by
        intro x hx hxo
        rw [List.mem_dedup, List.mem_flatten] at hx
        obtain ⟨r, hr, hxr⟩ := hx
        exact reported_cycle_nodes_not_in_order hWF hr x hxr hxo
      have htn :
          ((_detect_cycles (buildDeps (cfacts ++ ofacts))).flatten.dedup ++
            _calculate_startup_order (buildDeps (cfacts ++ ofacts))).Nodup :=
        List.Nodup.append (List.nodup_dedup _) (startup_order_nodup hWF) hdisj
      exact ⟨hfull, (hfull.nodup_iff).2 htn⟩

/-- Witness for the amended C5 on a graph with one cycle and one acyclic
tail edge: both antecedents hold and the phase containers are
duplicate-free. -/
theorem phases_cycle_phase_and_partition_witness :
    _detect_cycles (buildDeps ([("X", "Y"), ("Y", "X"), ("A", "B")] ++ [])) ≠ [] ∧
    _calculate_startup_order
      (buildDeps ([("X", "Y"), ("Y", "X"), ("A", "B")] ++ [])) ≠ [] ∧
    (((pipeline [("X", "Y"), ("Y", "X"), ("A", "B")] [] []).phases.map
      Phase.containers).flatten).Nodup := by
  refine ⟨by decide, by decide, ?_⟩
  exact ((phases_cycle_phase_and_partition
    [("X", "Y"), ("Y", "X"), ("A", "B")] [] []).2 (by decide)).2
